import Mathlib

/-!
Shallow embedding of `src/caustic/lenses/nfw.py` (the NFW lens profile of the
caustics repository) over the real numbers, together with theorems settling the
frozen claims about it.

Tensors are modelled element-wise: each torch tensor element is a real number,
and `torch.where(c, a, b)` — which evaluates both `a` and `b` for every element
and then selects — is modelled by an `if` on the element's condition applied to
the already-evaluated branch expressions (each branch is a named definition, so
that theorems can speak about the value a discarded branch computed).
Floating-point rounding is not modelled; arithmetic is exact real arithmetic,
with Lean's total division (`x / 0 = 0`) standing in for IEEE division, so an
IEEE `0/0 = NaN` shows up here as a division whose denominator is proved to be
zero.  The cosmology collaborator and the unit constants are abstract records,
exactly as the spec treats them (external interfaces consumed by this core).
-/

open Real

noncomputable section

namespace Caustic

/-- Cosmology collaborator interface: the four distance/density services the
NFW core consumes (spec §6).  The parameter-context argument `P` of the source
is already resolved away: each service is a function of its redshifts only. -/
structure Cosmology where
  critical_density : ℝ → ℝ
  critical_surface_density : ℝ → ℝ → ℝ
  angular_diameter_distance : ℝ → ℝ
  angular_diameter_distance_z1z2 : ℝ → ℝ → ℝ

/-- Unit-conversion and physical constants consumed by the core
(`caustic.constants`, an external interface per spec §1/§6). -/
structure Consts where
  G_over_c2 : ℝ
  arcsec_to_rad : ℝ
  rad_to_arcsec : ℝ

/-- `DELTA = 200.0`, the fixed overdensity constant (nfw.py line 12). -/
def DELTA : ℝ := 200

/-- Modelled from the spec: `translate_rotate(x, y, x0, y0) -> (x', y')` from
`caustic.utils` (not under `src/`) is, per spec §6, a rigid translation of the
query coordinates into the lens-centered frame; no rotation angle is used by
this circularly symmetric profile. -/
def translate_rotate (x y x0 y0 : ℝ) : ℝ × ℝ := (x - x0, y - y0)

/-- Inverse hyperbolic cosine (torch's `arccosh`, an external numeric-runtime
primitive), in its standard logarithmic form. -/
def arcosh (r : ℝ) : ℝ := Real.log (r + Real.sqrt (r ^ 2 - 1))

/-- Inverse hyperbolic tangent (torch's `arctanh`, an external numeric-runtime
primitive), in its standard logarithmic form. -/
def artanh (r : ℝ) : ℝ := Real.log ((1 + r) / (1 - r)) / 2

/-- An NFW lens instance with its parameters already resolved: the parameter
layer's "context value if present, else instance default" resolution is an
external collaborator (spec §3), so the embedding works with the resolved
values `(z_l, x0, y0, m, c)` plus the per-instance softening `s` directly. -/
structure NFW where
  cosmology : Cosmology
  consts : Consts
  z_l : ℝ
  x0 : ℝ
  y0 : ℝ
  m : ℝ
  c : ℝ
  s : ℝ

/-- Argument fed to `.sqrt()` by the outer (`x > 1`) branch of `_f`
(nfw.py line 150, first sqrt) and by `_h`'s outer branch divisor
(line 192): `x**2 - 1`. -/
def NFW.gt_sqrt_arg (x : ℝ) : ℝ := x ^ 2 - 1

/-- Argument fed to `.sqrt()` by the inner (`x < 1`) branch of `_f`
(nfw.py line 153, first sqrt) and by `_h`'s inner branch divisor
(line 195): `1 - x**2`. -/
def NFW.lt_sqrt_arg (x : ℝ) : ℝ := 1 - x ^ 2

/-- The `x > 1` branch tensor of `_f` (nfw.py line 150); under `torch.where`
it is computed for every element, whatever that element's branch. -/
def NFW.f_gt (x : ℝ) : ℝ :=
  1 - 2 / Real.sqrt (NFW.gt_sqrt_arg x) * Real.arctan (Real.sqrt ((x - 1) / (x + 1)))

/-- The `x < 1` branch tensor of `_f` (nfw.py line 153); under `torch.where`
it is computed for every element, whatever that element's branch. -/
def NFW.f_lt (x : ℝ) : ℝ :=
  1 - 2 / Real.sqrt (NFW.lt_sqrt_arg x) * artanh (Real.sqrt ((1 - x) / (1 + x)))

/-- `NFW._f` (nfw.py lines 136-156): element-wise
`torch.where(x > 1, f_gt, torch.where(x < 1, f_lt, 0.0))`. -/
def NFW._f (x : ℝ) : ℝ :=
  if x > 1 then NFW.f_gt x else if x < 1 then NFW.f_lt x else 0

/-- The `x > 1` branch of `_g`'s `term_2` (nfw.py line 173). -/
def NFW.g_gt (x : ℝ) : ℝ := Real.arccos (1 / x) ^ 2

/-- The `x < 1` branch of `_g`'s `term_2` (nfw.py line 174). -/
def NFW.g_lt (x : ℝ) : ℝ := -arcosh (1 / x) ^ 2

/-- `NFW._g` (nfw.py lines 158-176): `term_1 + term_2` with
`term_1 = (x/2).log() ** 2` and `term_2` the three-way `torch.where`. -/
def NFW._g (x : ℝ) : ℝ :=
  Real.log (x / 2) ^ 2 + (if x > 1 then NFW.g_gt x else if x < 1 then NFW.g_lt x else 0)

/-- The `x > 1` branch of `_h`'s `term_2` (nfw.py line 192):
`term_1 + (1/x).arccos() * 1 / (x**2 - 1).sqrt()`. -/
def NFW.h_gt (x : ℝ) : ℝ :=
  Real.log (x / 2) + Real.arccos (1 / x) * 1 / Real.sqrt (NFW.gt_sqrt_arg x)

/-- The `x < 1` branch of `_h`'s `term_2` (nfw.py line 195):
`term_1 + (1/x).arccosh() * 1 / (1 - x**2).sqrt()`. -/
def NFW.h_lt (x : ℝ) : ℝ :=
  Real.log (x / 2) + arcosh (1 / x) * 1 / Real.sqrt (NFW.lt_sqrt_arg x)

/-- `NFW._h` (nfw.py lines 178-199): the three-way `torch.where` whose
boundary value is `1.0 + torch.tensor(1/2).log()`. -/
def NFW._h (x : ℝ) : ℝ :=
  if x > 1 then NFW.h_gt x else if x < 1 then NFW.h_lt x else 1 + Real.log (1 / 2)

/-- `NFW.get_scale_radius` (nfw.py lines 82-97):
`r_delta = (3 m / (4 π DELTA ρ_crit(z_l)))**(1/3)`, returns `1/c * r_delta`. -/
def NFW.get_scale_radius (L : NFW) : ℝ :=
  let critical_density := L.cosmology.critical_density L.z_l
  let r_delta := (3 * L.m / (4 * π * DELTA * critical_density)) ^ ((1 : ℝ) / 3)
  1 / L.c * r_delta

/-- `NFW.get_scale_density` (nfw.py lines 99-117):
`DELTA/3 · ρ_crit(z_l) · c³ / (log(1+c) − c/(1+c))`. -/
def NFW.get_scale_density (L : NFW) : ℝ :=
  DELTA / 3 * L.cosmology.critical_density L.z_l * L.c ^ 3
    / (Real.log (1 + L.c) - L.c / (1 + L.c))

/-- `NFW.get_convergence_s` (nfw.py lines 119-134):
`ρ_s · r_s / Σ_crit(z_l, z_s)`. -/
def NFW.get_convergence_s (L : NFW) (z_s : ℝ) : ℝ :=
  L.get_scale_density * L.get_scale_radius
    / L.cosmology.critical_surface_density L.z_l z_s

/-- `NFW.deflection_angle_hat` (nfw.py lines 201-238). -/
def NFW.deflection_angle_hat (L : NFW) (x y z_s : ℝ) : ℝ × ℝ :=
  let p := translate_rotate x y L.x0 L.y0
  let th := Real.sqrt (p.1 ^ 2 + p.2 ^ 2) + L.s
  let d_l := L.cosmology.angular_diameter_distance L.z_l
  let scale_radius := L.get_scale_radius
  let xi := d_l * th * L.consts.arcsec_to_rad
  let r := xi / scale_radius
  let deflection_angle :=
    16 * π * L.consts.G_over_c2 * L.get_scale_density * scale_radius ^ 3
      * NFW._h r * L.consts.rad_to_arcsec / xi
  (deflection_angle * p.1 / th, deflection_angle * p.2 / th)

/-- `NFW.deflection_angle` (nfw.py lines 240-260). -/
def NFW.deflection_angle (L : NFW) (x y z_s : ℝ) : ℝ × ℝ :=
  let d_s := L.cosmology.angular_diameter_distance z_s
  let d_ls := L.cosmology.angular_diameter_distance_z1z2 L.z_l z_s
  let ah := L.deflection_angle_hat x y z_s
  (d_ls / d_s * ah.1, d_ls / d_s * ah.2)

/-- `NFW.convergence` (nfw.py lines 262-286): `2 κ_s _f(r) / (r² − 1)`. -/
def NFW.convergence (L : NFW) (x y z_s : ℝ) : ℝ :=
  let p := translate_rotate x y L.x0 L.y0
  let th := Real.sqrt (p.1 ^ 2 + p.2 ^ 2) + L.s
  let d_l := L.cosmology.angular_diameter_distance L.z_l
  let scale_radius := L.get_scale_radius
  let xi := d_l * th * L.consts.arcsec_to_rad
  let r := xi / scale_radius
  let convergence_s := L.get_convergence_s z_s
  2 * convergence_s * NFW._f r / (r ^ 2 - 1)

/-- `NFW.potential` (nfw.py lines 288-312):
`2 κ_s _g(r) r_s² / (d_l² arcsec_to_rad²)`. -/
def NFW.potential (L : NFW) (x y z_s : ℝ) : ℝ :=
  let p := translate_rotate x y L.x0 L.y0
  let th := Real.sqrt (p.1 ^ 2 + p.2 ^ 2) + L.s
  let d_l := L.cosmology.angular_diameter_distance L.z_l
  let scale_radius := L.get_scale_radius
  let xi := d_l * th * L.consts.arcsec_to_rad
  let r := xi / scale_radius
  let convergence_s := L.get_convergence_s z_s
  2 * convergence_s * NFW._g r * scale_radius ^ 2
    / (d_l ^ 2 * L.consts.arcsec_to_rad ^ 2)

/-- `_f`'s row of the spec's kernel table (spec §4.2), written from the spec's
words, to be compared with the source-derived `NFW._f`. -/
def spec_f (r : ℝ) : ℝ :=
  if r > 1 then 1 - 2 / Real.sqrt (r ^ 2 - 1) * Real.arctan (Real.sqrt ((r - 1) / (r + 1)))
  else if r < 1 then 1 - 2 / Real.sqrt (1 - r ^ 2) * artanh (Real.sqrt ((1 - r) / (1 + r)))
  else 0

/-- `_g`'s row of the spec's kernel table (spec §4.2), written from the spec's
words, to be compared with the source-derived `NFW._g`. -/
def spec_g (r : ℝ) : ℝ :=
  if r > 1 then Real.log (r / 2) ^ 2 + Real.arccos (1 / r) ^ 2
  else if r < 1 then Real.log (r / 2) ^ 2 - arcosh (1 / r) ^ 2
  else Real.log (r / 2) ^ 2

/-- `_h`'s row of the spec's kernel table (spec §4.2), written from the spec's
words, to be compared with the source-derived `NFW._h`. -/
def spec_h (r : ℝ) : ℝ :=
  if r > 1 then Real.log (r / 2) + Real.arccos (1 / r) / Real.sqrt (r ^ 2 - 1)
  else if r < 1 then Real.log (r / 2) + arcosh (1 / r) / Real.sqrt (1 - r ^ 2)
  else 1 + Real.log (1 / 2)

/-- Domain-validity of every primitive call made by the *selected* branch of
the three kernels at a given element: each `sqrt` receives a non-negative
argument, each `log` a positive one, each `arctan`/`arctanh` an argument in
the open unit interval, each `arccos` one in `[-1, 1]`, each `arccosh` one
`≥ 1`, and each divisor is non-zero.  This is the real-arithmetic reading of
"returns a finite value" (no NaN/inf from the branch that is kept). -/
def kernelArgsValid (x : ℝ) : Prop :=
  if x > 1 then
    0 ≤ NFW.gt_sqrt_arg x ∧ Real.sqrt (NFW.gt_sqrt_arg x) ≠ 0 ∧
      0 ≤ (x - 1) / (x + 1) ∧ 0 < x / 2 ∧ -1 ≤ 1 / x ∧ 1 / x ≤ 1
  else if x < 1 then
    0 ≤ NFW.lt_sqrt_arg x ∧ Real.sqrt (NFW.lt_sqrt_arg x) ≠ 0 ∧
      0 ≤ (1 - x) / (1 + x) ∧ Real.sqrt ((1 - x) / (1 + x)) < 1 ∧
      0 < x / 2 ∧ 1 ≤ 1 / x
  else True

/-- State-passing form of `deflection_angle_hat`: the Python method body
(nfw.py lines 201-238) only reads the instance (`self.unpack`, `self.s`,
`self.cosmology`, …) and contains no assignment to it, so the translated
method returns the unchanged instance alongside its result. -/
def NFW.deflection_angle_hat_st (L : NFW) (x y z_s : ℝ) : NFW × (ℝ × ℝ) :=
  (L, L.deflection_angle_hat x y z_s)

/-- State-passing form of `deflection_angle` (nfw.py lines 240-260); the
method body contains no assignment to `self`. -/
def NFW.deflection_angle_st (L : NFW) (x y z_s : ℝ) : NFW × (ℝ × ℝ) :=
  (L, L.deflection_angle x y z_s)

/-- State-passing form of `convergence` (nfw.py lines 262-286); the method
body contains no assignment to `self`. -/
def NFW.convergence_st (L : NFW) (x y z_s : ℝ) : NFW × ℝ :=
  (L, L.convergence x y z_s)

/-- State-passing form of `potential` (nfw.py lines 288-312); the method body
contains no assignment to `self`. -/
def NFW.potential_st (L : NFW) (x y z_s : ℝ) : NFW × ℝ :=
  (L, L.potential x y z_s)

/-- A concrete lens instance used to evaluate the embedding at closed inputs:
the cosmology returns critical density `3/(4 π DELTA)` and unit distances, all
conversion constants are `1`, and the halo has `m = c = 1`, center `(0, 0)`,
`z_l = 0`, softening `s = 0`.  With these numbers the scale radius is exactly
`1`, so the query point `(1, 0)` has dimensionless radius exactly `r = 1`. -/
def L0 : NFW :=
  ⟨⟨fun _ => 3 / (4 * π * DELTA), fun _ _ => 1, fun _ => 1, fun _ _ => 1⟩,
    ⟨1, 1, 1⟩, 0, 0, 0, 1, 1, 0⟩

/-- Common sub-expression of `_h`'s two non-boundary branches:
`arccos(1/x)/√(x²−1)` for `x > 1` and `arccosh(1/x)/√(1−x²)` for `x < 1`
(so `_h x = log(x/2) + Aker x` away from `x = 1`).  Only used by proofs. -/
def Aker (x : ℝ) : ℝ :=
  if x > 1 then Real.arccos (1 / x) / Real.sqrt (x ^ 2 - 1)
  else arcosh (1 / x) / Real.sqrt (1 - x ^ 2)

/-- NFW projected-surface-density kernel `(1 − Aker x)/(x² − 1)`; away from
`x = 1` it is the derivative of `_h` divided by `x`.  Only used by proofs. -/
def Sker (x : ℝ) : ℝ := (1 - Aker x) / (x ^ 2 - 1)

/-- Closed form of the derivative of `Sker` away from `x = 1`.
Only used by proofs. -/
def SkerDeriv (x : ℝ) : ℝ := (3 * x * Aker x - 1 / x - 2 * x) / (x ^ 2 - 1) ^ 2

/-- Auxiliary quantity `3·_h x − x²·Sker x`; positive on `(0,1) ∪ (1,∞)`, it
is `x⁻²` times the derivative of `t ↦ t³·_h(ξ/t)` at `t = ξ/x`.
Only used by proofs. -/
def Gfun (x : ℝ) : ℝ := 3 * NFW._h x - x ^ 2 * Sker x

/-- Auxiliary trigonometric comparison function, used to show the surface
density kernel decreases on `(1, ∞)`. -/
def psiTrig (u : ℝ) : ℝ := (2 + Real.cos u ^ 2) * Real.sin u - 3 * u * Real.cos u

/-- Auxiliary hyperbolic comparison function, used to show the surface
density kernel decreases on `(0, 1)`. -/
def psiHyp (u : ℝ) : ℝ := (2 + Real.cosh u ^ 2) * Real.sinh u - 3 * u * Real.cosh u

/-- Auxiliary function for the cubic tangent bound `tan u − tan³u/3 < u`,
used to bound the surface density kernel by its limiting value `1/3`. -/
def omegaTan (u : ℝ) : ℝ := u - Real.tan u + Real.tan u ^ 3 / 3

/-- Auxiliary function witnessing `sinh u < u·cosh u` for `u > 0`. -/
def chiHyp (u : ℝ) : ℝ := u * Real.cosh u - Real.sinh u

/-- A toy cosmology whose services all return `1`, used to evaluate the
embedding at closed inputs. -/
def unitCosmology : Cosmology := ⟨fun _ => 1, fun _ _ => 1, fun _ => 1, fun _ _ => 1⟩

/-- Unit conversion constants all equal to `1`, used to evaluate the
embedding at closed inputs. -/
def unitConsts : Consts := ⟨1, 1, 1⟩

/-- C2: for every element `r ≥ 0`, each kernel returns exactly the piecewise
formula tabulated in spec §4.2: `_f`, `_g` and `_h` agree with the spec's
table rows `spec_f`, `spec_g` and `spec_h`. -/
theorem kernels_match_spec_table (r : ℝ) (hr : 0 ≤ r) :
    NFW._f r = spec_f r ∧ NFW._g r = spec_g r ∧ NFW._h r = spec_h r := by
  rcases lt_trichotomy r 1 with h | h | h
  · have h1 : ¬ r > 1 := by linarith
    simp only [NFW._f, NFW._g, NFW._h, spec_f, spec_g, spec_h, NFW.f_gt, NFW.f_lt,
      NFW.g_gt, NFW.g_lt, NFW.h_gt, NFW.h_lt, NFW.gt_sqrt_arg, NFW.lt_sqrt_arg,
      if_neg h1, if_pos h]
    refine ⟨?_, ?_, ?_⟩ <;> first | trivial | ring
  · subst h
    simp only [NFW._f, NFW._g, NFW._h, spec_f, spec_g, spec_h, gt_iff_lt,
      lt_irrefl, if_false, if_neg (lt_irrefl (1 : ℝ))]
    refine ⟨?_, ?_, ?_⟩ <;> first | trivial | ring
  · simp only [NFW._f, NFW._g, NFW._h, spec_f, spec_g, spec_h, NFW.f_gt, NFW.f_lt,
      NFW.g_gt, NFW.g_lt, NFW.h_gt, NFW.h_lt, NFW.gt_sqrt_arg, NFW.lt_sqrt_arg,
      if_pos h]
    refine ⟨?_, ?_, ?_⟩ <;> first | trivial | ring

/-- Witness for C2 at the concrete radius `r = 2`. -/
theorem kernels_match_spec_table_witness :
    (0 : ℝ) ≤ 2 ∧
      (NFW._f 2 = spec_f 2 ∧ NFW._g 2 = spec_g 2 ∧ NFW._h 2 = spec_h 2) :=
  ⟨by norm_num, kernels_match_spec_table 2 (by norm_num)⟩

/-- C4: `deflection_angle` returns componentwise exactly `d_ls / d_s` times
the pair returned by `deflection_angle_hat` on the same inputs. -/
theorem deflection_angle_eq_ratio_mul_hat (L : NFW) (x y z_s : ℝ) :
    (L.deflection_angle x y z_s).1
        = L.cosmology.angular_diameter_distance_z1z2 L.z_l z_s
            / L.cosmology.angular_diameter_distance z_s
            * (L.deflection_angle_hat x y z_s).1
      ∧ (L.deflection_angle x y z_s).2
        = L.cosmology.angular_diameter_distance_z1z2 L.z_l z_s
            / L.cosmology.angular_diameter_distance z_s
            * (L.deflection_angle_hat x y z_s).2 :=
  ⟨rfl, rfl⟩

/-- C5: for strictly positive dimensionless radius, every primitive call of
the selected kernel branch is inside its valid domain (the real-arithmetic
reading of "finite result"), and the `r = 1` element produces the documented
boundary value exactly: `0` for `_f`, `(ln(1/2))²` for `_g`, and
`1 + ln(1/2)` for `_h`. -/
theorem kernels_finite_with_exact_boundary (r : ℝ) (hr : 0 < r) :
    kernelArgsValid r ∧ NFW._f 1 = 0 ∧ NFW._g 1 = Real.log (1 / 2) ^ 2 ∧
      NFW._h 1 = 1 + Real.log (1 / 2) := by
  refine ⟨?_, ?_, ?_, ?_⟩
  · unfold kernelArgsValid NFW.gt_sqrt_arg NFW.lt_sqrt_arg
    rcases lt_trichotomy r 1 with h | h | h
    · have h1 : ¬ r > 1 := by linarith
      rw [if_neg h1, if_pos h]
      refine ⟨by nlinarith, Real.sqrt_ne_zero'.mpr (by nlinarith),
        div_nonneg (by linarith) (by linarith),
        (Real.sqrt_lt' one_pos).mpr (by rw [one_pow]; exact (div_lt_one (by linarith)).mpr (by linarith)),
        by linarith, (one_le_div hr).mpr h.le⟩
    · subst h
      simp
    · rw [if_pos h]
      refine ⟨by nlinarith, Real.sqrt_ne_zero'.mpr (by nlinarith),
        div_nonneg (by linarith) (by linarith), by linarith,
        by have := one_div_pos.mpr hr; linarith,
        (div_le_one (by linarith)).mpr h.le⟩
  · simp [NFW._f]
  · simp [NFW._g]
  · simp [NFW._h]

/-- Witness for C5 at the concrete radius `r = 1` (the branch boundary). -/
theorem kernels_finite_with_exact_boundary_witness :
    (0 : ℝ) < 1 ∧
      (kernelArgsValid 1 ∧ NFW._f 1 = 0 ∧ NFW._g 1 = Real.log (1 / 2) ^ 2 ∧
        NFW._h 1 = 1 + Real.log (1 / 2)) :=
  ⟨by norm_num, kernels_finite_with_exact_boundary 1 (by norm_num)⟩

/-- C7: `convergence` and `potential` depend on the query point only through
its squared distance to the resolved lens center, so two query points
equidistant from `(x0, y0)` yield identical values. -/
theorem convergence_potential_radially_symmetric (L : NFW)
    (x1 y1 x2 y2 z_s : ℝ)
    (h : (x1 - L.x0) ^ 2 + (y1 - L.y0) ^ 2 = (x2 - L.x0) ^ 2 + (y2 - L.y0) ^ 2) :
    L.convergence x1 y1 z_s = L.convergence x2 y2 z_s ∧
      L.potential x1 y1 z_s = L.potential x2 y2 z_s := by
  simp only [NFW.convergence, NFW.potential, translate_rotate]
  rw [h]
  exact ⟨rfl, rfl⟩

/-- Witness for C7: the spec's example pair `(x0+1, y0)` and `(x0, y0+1)` on
the concrete lens `L0`. -/
theorem convergence_potential_radially_symmetric_witness :
    ((L0.x0 + 1 - L0.x0) ^ 2 + (L0.y0 - L0.y0) ^ 2
        = (L0.x0 - L0.x0) ^ 2 + (L0.y0 + 1 - L0.y0) ^ 2) ∧
      (L0.convergence (L0.x0 + 1) L0.y0 2 = L0.convergence L0.x0 (L0.y0 + 1) 2 ∧
        L0.potential (L0.x0 + 1) L0.y0 2 = L0.potential L0.x0 (L0.y0 + 1) 2) :=
  ⟨by ring, convergence_potential_radially_symmetric L0 _ _ _ _ 2 (by ring)⟩

/-- C9: the four observables neither mutate the lens instance (their
state-passing translations return it unchanged) nor depend on anything but
their inputs: running the same observable twice in sequence with identical
inputs yields identical outputs. -/
theorem observables_pure (L : NFW) (x y z_s : ℝ) :
    (L.deflection_angle_hat_st x y z_s).1 = L ∧
      (L.deflection_angle_st x y z_s).1 = L ∧
      (L.convergence_st x y z_s).1 = L ∧
      (L.potential_st x y z_s).1 = L ∧
      ((L.deflection_angle_hat_st x y z_s).1.deflection_angle_hat_st x y z_s).2
        = (L.deflection_angle_hat_st x y z_s).2 ∧
      ((L.deflection_angle_st x y z_s).1.deflection_angle_st x y z_s).2
        = (L.deflection_angle_st x y z_s).2 ∧
      ((L.convergence_st x y z_s).1.convergence_st x y z_s).2
        = (L.convergence_st x y z_s).2 ∧
      ((L.potential_st x y z_s).1.potential_st x y z_s).2
        = (L.potential_st x y z_s).2 :=
  ⟨rfl, rfl, rfl, rfl, rfl, rfl, rfl, rfl⟩

/-- C10: whenever the softened separation is positive, the reduced deflection
vector is collinear with the displacement from the lens center:
`α̂_x · y' = α̂_y · x'` exactly. -/
theorem deflection_angle_hat_collinear (L : NFW) (x y z_s : ℝ)
    (h : 0 < Real.sqrt ((x - L.x0) ^ 2 + (y - L.y0) ^ 2) + L.s) :
    (L.deflection_angle_hat x y z_s).1 * (y - L.y0)
      = (L.deflection_angle_hat x y z_s).2 * (x - L.x0) := by
  simp only [NFW.deflection_angle_hat, translate_rotate]
  ring

/-- Witness for C10 at the concrete lens `L0` and query `(1, 0)`. -/
theorem deflection_angle_hat_collinear_witness :
    (0 < Real.sqrt ((1 - L0.x0) ^ 2 + (0 - L0.y0) ^ 2) + L0.s) ∧
      (L0.deflection_angle_hat 1 0 2).1 * (0 - L0.y0)
        = (L0.deflection_angle_hat 1 0 2).2 * (1 - L0.x0) := by
  have h : 0 < Real.sqrt ((1 - L0.x0) ^ 2 + (0 - L0.y0) ^ 2) + L0.s := by
    have : ((1 : ℝ) - L0.x0) ^ 2 + (0 - L0.y0) ^ 2 = 1 := by
      show ((1 : ℝ) - 0) ^ 2 + (0 - 0) ^ 2 = 1
      ring
    rw [this, Real.sqrt_one]
    show (0 : ℝ) < 1 + 0
    norm_num
  exact ⟨h, deflection_angle_hat_collinear L0 1 0 2 h⟩

/-- C6: for `m, c > 0` (and positive critical density), `get_scale_radius`
returns `r_Δ / c` where `r_Δ` is the unique positive solution of
`m = (4/3)·π·Δ·ρ_crit(z_l)·r_Δ³` with `Δ = 200`. -/
theorem get_scale_radius_solves_overdensity (L : NFW)
    (hm : 0 < L.m) (hc : 0 < L.c)
    (hρ : 0 < L.cosmology.critical_density L.z_l) :
    ∃ rΔ : ℝ, 0 < rΔ ∧
      L.m = 4 / 3 * π * DELTA * L.cosmology.critical_density L.z_l * rΔ ^ 3 ∧
      (∀ r' : ℝ, 0 < r' →
        L.m = 4 / 3 * π * DELTA * L.cosmology.critical_density L.z_l * r' ^ 3 →
        r' = rΔ) ∧
      L.get_scale_radius = rΔ / L.c := by
  have hπ : (0 : ℝ) < π := Real.pi_pos
  have hΔ : (0 : ℝ) < DELTA := by norm_num [DELTA]
  set ρ := L.cosmology.critical_density L.z_l with hρdef
  have hbase : 0 < 3 * L.m / (4 * π * DELTA * ρ) := by positivity
  refine ⟨(3 * L.m / (4 * π * DELTA * ρ)) ^ ((1 : ℝ) / 3),
    Real.rpow_pos_of_pos hbase _, ?_, ?_, ?_⟩
  · have hcube : ((3 * L.m / (4 * π * DELTA * ρ)) ^ ((1 : ℝ) / 3)) ^ (3 : ℕ)
        = 3 * L.m / (4 * π * DELTA * ρ) := by
      have h13 : ((1 : ℝ) / 3) = ((3 : ℕ) : ℝ)⁻¹ := by norm_num
      rw [h13, Real.rpow_inv_natCast_pow hbase.le (by norm_num)]
    rw [hcube]
    field_simp
    ring
  · intro r' hr' hEq
    have hcube : ((3 * L.m / (4 * π * DELTA * ρ)) ^ ((1 : ℝ) / 3)) ^ (3 : ℕ)
        = 3 * L.m / (4 * π * DELTA * ρ) := by
      have h13 : ((1 : ℝ) / 3) = ((3 : ℕ) : ℝ)⁻¹ := by norm_num
      rw [h13, Real.rpow_inv_natCast_pow hbase.le (by norm_num)]
    have hr3 : r' ^ (3 : ℕ)
        = ((3 * L.m / (4 * π * DELTA * ρ)) ^ ((1 : ℝ) / 3)) ^ (3 : ℕ) := by
      rw [hcube]
      rw [hEq]
      field_simp
    have hΔpos : 0 < (3 * L.m / (4 * π * DELTA * ρ)) ^ ((1 : ℝ) / 3) :=
      Real.rpow_pos_of_pos hbase _
    rcases lt_trichotomy r' ((3 * L.m / (4 * π * DELTA * ρ)) ^ ((1 : ℝ) / 3)) with
      hlt | heq | hgt
    · exact absurd hr3 (ne_of_lt (pow_lt_pow_left₀ hlt hr'.le (by norm_num)))
    · exact heq
    · exact absurd hr3.symm (ne_of_lt (pow_lt_pow_left₀ hgt hΔpos.le (by norm_num)))
  · unfold NFW.get_scale_radius
    rw [← hρdef]
    ring

/-- Witness for C6 at the concrete lens `L0` (`m = c = 1`,
`ρ_crit = 3/(4 π DELTA)`). -/
theorem get_scale_radius_solves_overdensity_witness :
    (0 < L0.m ∧ 0 < L0.c ∧ 0 < L0.cosmology.critical_density L0.z_l) ∧
      ∃ rΔ : ℝ, 0 < rΔ ∧
        L0.m = 4 / 3 * π * DELTA * L0.cosmology.critical_density L0.z_l * rΔ ^ 3 ∧
        (∀ r' : ℝ, 0 < r' →
          L0.m = 4 / 3 * π * DELTA * L0.cosmology.critical_density L0.z_l * r' ^ 3 →
          r' = rΔ) ∧
        L0.get_scale_radius = rΔ / L0.c := by
  have hm : 0 < L0.m := one_pos
  have hc : 0 < L0.c := one_pos
  have hρ : 0 < L0.cosmology.critical_density L0.z_l := by
    show (0 : ℝ) < 3 / (4 * π * DELTA)
    have : (0 : ℝ) < π := Real.pi_pos
    norm_num [DELTA]
    positivity
  exact ⟨⟨hm, hc, hρ⟩, get_scale_radius_solves_overdensity L0 hm hc hρ⟩

/-- C3 counterexample: the kernels' branch sub-expressions are *not* guarded.
At the element `r = 2` (which belongs to the `r > 1` branch) the discarded
`r < 1` branch of `_f` and `_h` feeds `1 − r² = −3 < 0` to its square root —
an invalid intermediate — while the selection keeps the `r > 1` branch. -/
theorem kernel_branch_unguarded_counterexample :
    NFW.lt_sqrt_arg 2 < 0 ∧ NFW._f 2 = NFW.f_gt 2 ∧ NFW._h 2 = NFW.h_gt 2 := by
  refine ⟨by norm_num [NFW.lt_sqrt_arg], ?_, ?_⟩ <;> norm_num [NFW._f, NFW._h]

/-- C3 (amended): all three branches are combined by a three-way element-wise
selection, but no branch sub-expression is clamped to its valid domain: for
every element `r > 1` the discarded `r < 1` branch takes the square root of
the negative number `1 − r²`, and for every element `0 ≤ r < 1` the discarded
`r > 1` branch takes the square root of the negative number `r² − 1`; only
the selection keeps these invalid intermediates out of the result. -/
theorem kernel_branches_unguarded (x : ℝ) :
    (x > 1 →
      NFW.lt_sqrt_arg x < 0 ∧ NFW._f x = NFW.f_gt x ∧ NFW._h x = NFW.h_gt x) ∧
    (0 ≤ x → x < 1 →
      NFW.gt_sqrt_arg x < 0 ∧ NFW._f x = NFW.f_lt x ∧ NFW._h x = NFW.h_lt x) := by
  constructor
  · intro h
    refine ⟨by unfold NFW.lt_sqrt_arg; nlinarith, ?_, ?_⟩ <;>
      simp [NFW._f, NFW._h, if_pos h]
  · intro h0 h1
    have hn : ¬ x > 1 := by linarith
    refine ⟨by unfold NFW.gt_sqrt_arg; nlinarith, ?_, ?_⟩ <;>
      simp [NFW._f, NFW._h, if_neg hn, if_pos h1]

/-- Witness for the amended C3 at the concrete elements `r = 2` and
`r = 1/2`. -/
theorem kernel_branches_unguarded_witness :
    (NFW.lt_sqrt_arg 2 < 0 ∧ NFW._f 2 = NFW.f_gt 2 ∧ NFW._h 2 = NFW.h_gt 2) ∧
      (NFW.gt_sqrt_arg (1 / 2) < 0 ∧ NFW._f (1 / 2) = NFW.f_lt (1 / 2) ∧
        NFW._h (1 / 2) = NFW.h_lt (1 / 2)) :=
  ⟨(kernel_branches_unguarded 2).1 (by norm_num),
    (kernel_branches_unguarded (1 / 2)).2 (by norm_num) (by norm_num)⟩

/-- C1: at the concrete lens `L0` and query point `(1, 0)` the dimensionless
radius is exactly `r = 1`, and there `convergence` evaluates
`2·κ_s·_f(1)/(1² − 1)`, a `0/0`: in the total real embedding the result is
`0`, while the claimed closed-form limiting value `2·κ_s/3` is strictly
positive (under IEEE arithmetic the same `0/0` is NaN, a non-finite result).
The third conjunct exhibits the vanishing denominator. -/
theorem convergence_at_r_one_is_zero_div_zero :
    L0.convergence 1 0 2 = 0 ∧
      0 < 2 * L0.get_convergence_s 2 / 3 ∧
      (L0.cosmology.angular_diameter_distance L0.z_l
          * (Real.sqrt ((1 - L0.x0) ^ 2 + (0 - L0.y0) ^ 2) + L0.s)
          * L0.consts.arcsec_to_rad / L0.get_scale_radius) ^ 2 - 1 = 0 := by
  have hπ : (0 : ℝ) < π := Real.pi_pos
  have hsr : L0.get_scale_radius = 1 := by
    unfold NFW.get_scale_radius
    show 1 / (1 : ℝ)
        * (3 * 1 / (4 * π * DELTA * (3 / (4 * π * DELTA)))) ^ ((1 : ℝ) / 3) = 1
    have h3 : 4 * π * DELTA * (3 / (4 * π * DELTA)) = 3 := by
      have : 4 * π * DELTA ≠ 0 := by norm_num [DELTA]; positivity
      field_simp
    rw [h3]
    norm_num [Real.one_rpow]
  have hr1 : L0.cosmology.angular_diameter_distance L0.z_l
      * (Real.sqrt ((1 - L0.x0) ^ 2 + (0 - L0.y0) ^ 2) + L0.s)
      * L0.consts.arcsec_to_rad / L0.get_scale_radius = 1 := by
    rw [hsr]
    show (1 : ℝ) * (Real.sqrt ((1 - 0) ^ 2 + (0 - 0) ^ 2) + 0) * 1 / 1 = 1
    rw [show ((1 : ℝ) - 0) ^ 2 + (0 - 0) ^ 2 = 1 by ring, Real.sqrt_one]
    norm_num
  have hlog : (1 : ℝ) / 2 < Real.log 2 := by
    have h9 := Real.log_two_gt_d9
    linarith
  have hsd : 0 < L0.get_scale_density := by
    unfold NFW.get_scale_density
    show 0 < DELTA / 3 * (3 / (4 * π * DELTA)) * 1 ^ 3
        / (Real.log (1 + 1) - 1 / (1 + 1))
    rw [show (1 : ℝ) + 1 = 2 by norm_num]
    apply div_pos
    · norm_num [DELTA]
      positivity
    · linarith
  have hκ : L0.get_convergence_s 2 = L0.get_scale_density := by
    unfold NFW.get_convergence_s
    rw [hsr]
    show L0.get_scale_density * 1 / 1 = L0.get_scale_density
    norm_num
  refine ⟨?_, ?_, ?_⟩
  · show 2 * L0.get_convergence_s 2
        * NFW._f (L0.cosmology.angular_diameter_distance L0.z_l
            * (Real.sqrt ((1 - L0.x0) ^ 2 + (0 - L0.y0) ^ 2) + L0.s)
            * L0.consts.arcsec_to_rad / L0.get_scale_radius)
        / ((L0.cosmology.angular_diameter_distance L0.z_l
            * (Real.sqrt ((1 - L0.x0) ^ 2 + (0 - L0.y0) ^ 2) + L0.s)
            * L0.consts.arcsec_to_rad / L0.get_scale_radius) ^ 2 - 1) = 0
    rw [hr1]
    norm_num [NFW._f]
  · rw [hκ]
    linarith
  · rw [hr1]
    norm_num

theorem sinh_lt_mul_cosh {u : ℝ} (hu : 0 < u) : Real.sinh u < u * Real.cosh u := by
  have hd : ∀ v : ℝ, HasDerivAt chiHyp (v * Real.sinh v) v := by
    intro v
    have h1 := ((hasDerivAt_id v).mul (Real.hasDerivAt_cosh v)).sub (Real.hasDerivAt_sinh v)
    convert h1 using 1
    simp only [id_eq]
    ring
  have hmono : StrictMonoOn chiHyp (Set.Ici 0) := by
    apply strictMonoOn_of_deriv_pos (convex_Ici 0)
    · exact ((continuous_id.mul Real.continuous_cosh).sub Real.continuous_sinh).continuousOn
    · intro v hv
      rw [interior_Ici, Set.mem_Ioi] at hv
      rw [(hd v).deriv]
      exact mul_pos hv (Real.sinh_pos_iff.mpr hv)
  have h0 : chiHyp 0 = 0 := by simp [chiHyp]
  have := hmono (Set.left_mem_Ici) (Set.mem_Ici.mpr hu.le) hu
  rw [h0] at this
  unfold chiHyp at this
  linarith

theorem psiTrig_pos {θ : ℝ} (h0 : 0 < θ) (h2 : θ < π / 2) : 0 < psiTrig θ := by
  have hd : ∀ v : ℝ, HasDerivAt psiTrig
      (3 * Real.sin v * (v - Real.sin v * Real.cos v)) v := by
    intro v
    have h1 : HasDerivAt (fun u : ℝ => (2 + Real.cos u ^ 2) * Real.sin u)
        ((2 * Real.cos v ^ 1 * -Real.sin v) * Real.sin v
          + (2 + Real.cos v ^ 2) * Real.cos v) v :=
      (((Real.hasDerivAt_cos v).pow 2).const_add 2).mul (Real.hasDerivAt_sin v)
    have h2' : HasDerivAt (fun u : ℝ => 3 * u * Real.cos u)
        ((3 * 1) * Real.cos v + 3 * v * -Real.sin v) v :=
      ((hasDerivAt_id v).const_mul 3).mul (Real.hasDerivAt_cos v)
    have h3 := h1.sub h2'
    convert h3 using 1
    have hpyth := Real.sin_sq_add_cos_sq v
    linear_combination (-Real.cos v) * hpyth
  have hmono : StrictMonoOn psiTrig (Set.Icc 0 (π / 2)) := by
    apply strictMonoOn_of_deriv_pos (convex_Icc 0 (π / 2))
    · exact (((continuous_const.add (Real.continuous_cos.pow 2)).mul
        Real.continuous_sin).sub
        ((continuous_const.mul continuous_id).mul Real.continuous_cos)).continuousOn
    · intro v hv
      rw [interior_Icc, Set.mem_Ioo] at hv
      rw [(hd v).deriv]
      have hπ : (0 : ℝ) < π := Real.pi_pos
      have hsin : 0 < Real.sin v := Real.sin_pos_of_pos_of_lt_pi hv.1 (by linarith)
      have h2v : Real.sin (2 * v) < 2 * v := Real.sin_lt (by linarith)
      rw [Real.sin_two_mul] at h2v
      nlinarith
  have h00 : psiTrig 0 = 0 := by simp [psiTrig]
  have hπ : (0 : ℝ) < π := Real.pi_pos
  have := hmono (Set.mem_Icc.mpr ⟨le_refl 0, by linarith⟩)
    (Set.mem_Icc.mpr ⟨h0.le, h2.le⟩) h0
  rw [h00] at this
  exact this

theorem psiHyp_pos {θ : ℝ} (h0 : 0 < θ) : 0 < psiHyp θ := by
  have hd : ∀ v : ℝ, HasDerivAt psiHyp
      (3 * Real.sinh v * (Real.sinh v * Real.cosh v - v)) v := by
    intro v
    have h1 : HasDerivAt (fun u : ℝ => (2 + Real.cosh u ^ 2) * Real.sinh u)
        ((2 * Real.cosh v ^ 1 * Real.sinh v) * Real.sinh v
          + (2 + Real.cosh v ^ 2) * Real.cosh v) v :=
      (((Real.hasDerivAt_cosh v).pow 2).const_add 2).mul (Real.hasDerivAt_sinh v)
    have h2' : HasDerivAt (fun u : ℝ => 3 * u * Real.cosh u)
        ((3 * 1) * Real.cosh v + 3 * v * Real.sinh v) v :=
      ((hasDerivAt_id v).const_mul 3).mul (Real.hasDerivAt_cosh v)
    have h3 := h1.sub h2'
    convert h3 using 1
    have hpyth := Real.cosh_sq v
    linear_combination (-Real.cosh v) * hpyth
  have hmono : StrictMonoOn psiHyp (Set.Ici 0) := by
    apply strictMonoOn_of_deriv_pos (convex_Ici 0)
    · exact (((continuous_const.add (Real.continuous_cosh.pow 2)).mul
        Real.continuous_sinh).sub
        ((continuous_const.mul continuous_id).mul Real.continuous_cosh)).continuousOn
    · intro v hv
      rw [interior_Ici, Set.mem_Ioi] at hv
      rw [(hd v).deriv]
      have hsinh : 0 < Real.sinh v := Real.sinh_pos_iff.mpr hv
      have h2v : 2 * v < Real.sinh (2 * v) := Real.self_lt_sinh_iff.mpr (by linarith)
      rw [Real.sinh_two_mul] at h2v
      nlinarith
  have h00 : psiHyp 0 = 0 := by simp [psiHyp]
  have := hmono Set.left_mem_Ici (Set.mem_Ici.mpr h0.le) h0
  rw [h00] at this
  exact this

theorem omegaTan_pos {θ : ℝ} (h0 : 0 < θ) (h2 : θ < π / 2) : 0 < omegaTan θ := by
  have hcos : ∀ v ∈ Set.Ico (0 : ℝ) (π / 2), Real.cos v ≠ 0 := by
    intro v hv
    have hπ : (0 : ℝ) < π := Real.pi_pos
    exact (Real.cos_pos_of_mem_Ioo ⟨by linarith [hv.1], hv.2⟩).ne'
  have hd : ∀ v ∈ Set.Ioo (0 : ℝ) (π / 2), HasDerivAt omegaTan (Real.tan v ^ 4) v := by
    intro v hv
    have hcv : Real.cos v ≠ 0 := hcos v ⟨hv.1.le, hv.2⟩
    have ht := Real.hasDerivAt_tan hcv
    have h3 : HasDerivAt (fun u : ℝ => Real.tan u ^ 3 / 3)
        ((3 * Real.tan v ^ 2 * (1 / Real.cos v ^ 2)) / 3) v := (ht.pow 3).div_const 3
    have h4 := ((hasDerivAt_id v).sub ht).add h3
    convert h4 using 1
    have hsc := Real.sin_sq_add_cos_sq v
    rw [Real.tan_eq_sin_div_cos]
    field_simp
    linear_combination (3 * Real.cos v ^ 6 * (Real.sin v ^ 2 - Real.cos v ^ 2)) * hsc
  have hmono : StrictMonoOn omegaTan (Set.Ico 0 (π / 2)) := by
    apply strictMonoOn_of_deriv_pos (convex_Ico 0 (π / 2))
    · intro v hv
      have hcv : Real.cos v ≠ 0 := hcos v hv
      have htc : ContinuousAt Real.tan v := Real.continuousAt_tan.mpr hcv
      exact ((continuousAt_id.sub htc).add ((htc.pow 3).div_const 3)).continuousWithinAt
    · intro v hv
      rw [interior_Ico] at hv
      rw [((hd v hv).deriv)]
      have htp : 0 < Real.tan v := Real.tan_pos_of_pos_of_lt_pi_div_two hv.1 hv.2
      positivity
  have h00 : omegaTan 0 = 0 := by simp [omegaTan]
  have hπ : (0 : ℝ) < π := Real.pi_pos
  have := hmono (Set.mem_Ico.mpr ⟨le_refl 0, by linarith⟩)
    (Set.mem_Ico.mpr ⟨h0.le, h2⟩) h0
  rw [h00] at this
  exact this

theorem arcosh_pos {r : ℝ} (hr : 1 < r) : 0 < arcosh r := by
  unfold arcosh
  apply Real.log_pos
  have := Real.sqrt_nonneg (r ^ 2 - 1)
  linarith

theorem cosh_arcosh {r : ℝ} (hr : 1 ≤ r) : Real.cosh (arcosh r) = r := by
  unfold arcosh
  have hs2 : Real.sqrt (r ^ 2 - 1) ^ 2 = r ^ 2 - 1 := Real.sq_sqrt (by nlinarith)
  have hapos : 0 < r + Real.sqrt (r ^ 2 - 1) := by
    have := Real.sqrt_nonneg (r ^ 2 - 1)
    linarith
  have hinv : (r + Real.sqrt (r ^ 2 - 1))⁻¹ = r - Real.sqrt (r ^ 2 - 1) :=
    inv_eq_of_mul_eq_one_right (by nlinarith)
  rw [Real.cosh_eq, Real.exp_neg, Real.exp_log hapos, hinv]
  ring

theorem sinh_arcosh {r : ℝ} (hr : 1 ≤ r) : Real.sinh (arcosh r) = Real.sqrt (r ^ 2 - 1) := by
  unfold arcosh
  have hs2 : Real.sqrt (r ^ 2 - 1) ^ 2 = r ^ 2 - 1 := Real.sq_sqrt (by nlinarith)
  have hapos : 0 < r + Real.sqrt (r ^ 2 - 1) := by
    have := Real.sqrt_nonneg (r ^ 2 - 1)
    linarith
  have hinv : (r + Real.sqrt (r ^ 2 - 1))⁻¹ = r - Real.sqrt (r ^ 2 - 1) :=
    inv_eq_of_mul_eq_one_right (by nlinarith)
  rw [Real.sinh_eq, Real.exp_neg, Real.exp_log hapos, hinv]
  ring

theorem hasDerivAt_arcosh {r : ℝ} (hr : 1 < r) :
    HasDerivAt arcosh (1 / Real.sqrt (r ^ 2 - 1)) r := by
  have hs0 : 0 < r ^ 2 - 1 := by nlinarith
  have hsne : Real.sqrt (r ^ 2 - 1) ≠ 0 := Real.sqrt_ne_zero'.mpr hs0
  have hspos : 0 < Real.sqrt (r ^ 2 - 1) := Real.sqrt_pos.mpr hs0
  have hs2 : Real.sqrt (r ^ 2 - 1) ^ 2 = r ^ 2 - 1 := Real.sq_sqrt hs0.le
  have hapos : 0 < r + Real.sqrt (r ^ 2 - 1) := by linarith
  have hp : HasDerivAt (fun y : ℝ => y ^ 2 - 1) (2 * r) r := by
    simpa using (hasDerivAt_pow 2 r).sub_const 1
  have hinner : HasDerivAt (fun y : ℝ => y + Real.sqrt (y ^ 2 - 1))
      (1 + (2 * r) / (2 * Real.sqrt (r ^ 2 - 1))) r :=
    (hasDerivAt_id r).add (hp.sqrt hs0.ne')
  have hlog := hinner.log hapos.ne'
  have harc : HasDerivAt arcosh
      ((1 + (2 * r) / (2 * Real.sqrt (r ^ 2 - 1))) / (r + Real.sqrt (r ^ 2 - 1))) r := by
    unfold arcosh
    exact hlog
  convert harc using 1
  field_simp
  nlinarith [hs2]

theorem sqrt_inv_sq_sub_one {x : ℝ} (hx0 : 0 < x) (hx : x < 1) :
    Real.sqrt ((1 / x) ^ 2 - 1) = Real.sqrt (1 - x ^ 2) / x := by
  have h1 : (1 / x) ^ 2 - 1 = (1 - x ^ 2) / x ^ 2 := by
    field_simp
  rw [h1, Real.sqrt_div (by nlinarith), Real.sqrt_sq hx0.le]

theorem sqrt_one_sub_inv_sq {x : ℝ} (hx : 1 < x) :
    Real.sqrt (1 - (1 / x) ^ 2) = Real.sqrt (x ^ 2 - 1) / x := by
  have hx0 : 0 < x := lt_trans one_pos hx
  have h1 : 1 - (1 / x) ^ 2 = (x ^ 2 - 1) / x ^ 2 := by
    field_simp
  rw [h1, Real.sqrt_div (by nlinarith), Real.sqrt_sq hx0.le]

theorem arccos_inv_facts {x : ℝ} (hx : 1 < x) :
    0 < Real.arccos (1 / x) ∧ Real.arccos (1 / x) < π / 2 ∧
      Real.cos (Real.arccos (1 / x)) = 1 / x ∧
      Real.sin (Real.arccos (1 / x)) = Real.sqrt (x ^ 2 - 1) / x ∧
      Real.tan (Real.arccos (1 / x)) = Real.sqrt (x ^ 2 - 1) := by
  have hx0 : 0 < x := lt_trans one_pos hx
  have hinv0 : 0 < 1 / x := by positivity
  have hinv1 : 1 / x < 1 := (div_lt_one hx0).mpr hx
  have hcos : Real.cos (Real.arccos (1 / x)) = 1 / x :=
    Real.cos_arccos (by linarith) hinv1.le
  have hsin : Real.sin (Real.arccos (1 / x)) = Real.sqrt (x ^ 2 - 1) / x := by
    rw [Real.sin_arccos, sqrt_one_sub_inv_sq hx]
  refine ⟨Real.arccos_pos.mpr hinv1, Real.arccos_lt_pi_div_two.mpr hinv0, hcos, hsin, ?_⟩
  rw [Real.tan_eq_sin_div_cos, hsin, hcos]
  field_simp

theorem Aker_eq_gt {x : ℝ} (hx : 1 < x) :
    Aker x = Real.arccos (1 / x) / Real.sqrt (x ^ 2 - 1) := by
  unfold Aker
  rw [if_pos hx]

theorem Aker_eq_lt {x : ℝ} (hx : x < 1) :
    Aker x = arcosh (1 / x) / Real.sqrt (1 - x ^ 2) := by
  unfold Aker
  rw [if_neg (by linarith)]

theorem Aker_bounds_gt {x : ℝ} (hx : 1 < x) : 1 / x < Aker x ∧ Aker x < 1 := by
  have hx0 : 0 < x := lt_trans one_pos hx
  obtain ⟨hθ0, hθ2, hcos, hsin, htan⟩ := arccos_inv_facts hx
  have hs0 : 0 < x ^ 2 - 1 := by nlinarith
  have hspos : 0 < Real.sqrt (x ^ 2 - 1) := Real.sqrt_pos.mpr hs0
  rw [Aker_eq_gt hx]
  constructor
  · rw [div_lt_div_iff hx0 hspos]
    have hsinlt : Real.sin (Real.arccos (1 / x)) < Real.arccos (1 / x) :=
      Real.sin_lt hθ0
    rw [hsin] at hsinlt
    calc 1 * Real.sqrt (x ^ 2 - 1)
        = (Real.sqrt (x ^ 2 - 1) / x) * x := by field_simp
      _ < Real.arccos (1 / x) * x := by
          exact mul_lt_mul_of_pos_right hsinlt hx0
  · rw [div_lt_one hspos, ← htan]
    exact Real.lt_tan hθ0 hθ2

theorem Aker_bounds_lt {x : ℝ} (hx0 : 0 < x) (hx : x < 1) :
    1 < Aker x ∧ Aker x < 1 / x := by
  have hr : 1 < 1 / x := (one_lt_div hx0).mpr hx
  have hθ0 : 0 < arcosh (1 / x) := arcosh_pos hr
  have hcosh : Real.cosh (arcosh (1 / x)) = 1 / x := cosh_arcosh hr.le
  have hsinh : Real.sinh (arcosh (1 / x)) = Real.sqrt (1 - x ^ 2) / x := by
    rw [sinh_arcosh hr.le, sqrt_inv_sq_sub_one hx0 hx]
  have hs0 : 0 < 1 - x ^ 2 := by nlinarith
  have hspos : 0 < Real.sqrt (1 - x ^ 2) := Real.sqrt_pos.mpr hs0
  rw [Aker_eq_lt hx]
  constructor
  · rw [lt_div_iff hspos, one_mul]
    have h1 : Real.sinh (arcosh (1 / x)) < arcosh (1 / x) * Real.cosh (arcosh (1 / x)) :=
      sinh_lt_mul_cosh hθ0
    rw [hsinh, hcosh] at h1
    calc Real.sqrt (1 - x ^ 2) = (Real.sqrt (1 - x ^ 2) / x) * x := by field_simp
      _ < (arcosh (1 / x) * (1 / x)) * x := by
          exact mul_lt_mul_of_pos_right h1 hx0
      _ = arcosh (1 / x) := by field_simp
  · rw [div_lt_div_iff hspos hx0]
    have h1 : arcosh (1 / x) < Real.sinh (arcosh (1 / x)) :=
      Real.self_lt_sinh_iff.mpr hθ0
    rw [hsinh] at h1
    calc arcosh (1 / x) * x < (Real.sqrt (1 - x ^ 2) / x) * x := by
          exact mul_lt_mul_of_pos_right h1 hx0
      _ = Real.sqrt (1 - x ^ 2) := by field_simp
      _ = 1 * Real.sqrt (1 - x ^ 2) := by ring

theorem Sker_pos {x : ℝ} (hx0 : 0 < x) (hne : x ≠ 1) : 0 < Sker x := by
  unfold Sker
  rcases lt_or_gt_of_ne hne with h | h
  · have hb := Aker_bounds_lt hx0 h
    apply div_pos_of_neg_of_neg
    · linarith [hb.1]
    · nlinarith
  · have hb := Aker_bounds_gt h
    apply div_pos
    · linarith [hb.2]
    · nlinarith

theorem Sker_lt_third_gt {x : ℝ} (hx : 1 < x) : Sker x < 1 / 3 := by
  obtain ⟨hθ0, hθ2, hcos, hsin, htan⟩ := arccos_inv_facts hx
  have hs0 : 0 < x ^ 2 - 1 := by nlinarith
  have hspos : 0 < Real.sqrt (x ^ 2 - 1) := Real.sqrt_pos.mpr hs0
  have hs2 : Real.sqrt (x ^ 2 - 1) ^ 2 = x ^ 2 - 1 := Real.sq_sqrt hs0.le
  have hω := omegaTan_pos hθ0 hθ2
  unfold omegaTan at hω
  rw [htan] at hω
  -- hω : 0 < θ − √(x²−1) + √(x²−1)³/3, i.e. 1 − θ/√(x²−1) < (x²−1)/3
  have hs3 : Real.sqrt (x ^ 2 - 1) ^ 3 = Real.sqrt (x ^ 2 - 1) ^ 2 * Real.sqrt (x ^ 2 - 1) := by
    ring
  rw [hs2] at hs3
  have key : (1 - (x ^ 2 - 1) / 3) * Real.sqrt (x ^ 2 - 1) < Real.arccos (1 / x) := by
    nlinarith [hω, hs3]
  have hA : 1 - Real.arccos (1 / x) / Real.sqrt (x ^ 2 - 1) < (x ^ 2 - 1) / 3 := by
    have h2 := (lt_div_iff hspos).mpr key
    linarith
  unfold Sker
  rw [Aker_eq_gt hx, div_lt_iff hs0]
  calc 1 - Real.arccos (1 / x) / Real.sqrt (x ^ 2 - 1)
      < (x ^ 2 - 1) / 3 := hA
    _ = 1 / 3 * (x ^ 2 - 1) := by ring

theorem h_eq_log_add_Aker {x : ℝ} (hne : x ≠ 1) :
    NFW._h x = Real.log (x / 2) + Aker x := by
  rcases lt_or_gt_of_ne hne with h | h
  · unfold NFW._h NFW.h_lt NFW.lt_sqrt_arg
    rw [if_neg (by linarith), if_pos h, Aker_eq_lt h]
    ring
  · unfold NFW._h NFW.h_gt NFW.gt_sqrt_arg
    rw [if_pos h, Aker_eq_gt h]
    ring

theorem hasDerivAt_Aker_gt {x : ℝ} (hx : 1 < x) :
    HasDerivAt Aker (x * Sker x - 1 / x) x := by
  have hx0 : 0 < x := lt_trans one_pos hx
  have hs0 : 0 < x ^ 2 - 1 := by nlinarith
  have hsne : Real.sqrt (x ^ 2 - 1) ≠ 0 := Real.sqrt_ne_zero'.mpr hs0
  have hspos : 0 < Real.sqrt (x ^ 2 - 1) := Real.sqrt_pos.mpr hs0
  have hs2 : Real.sqrt (x ^ 2 - 1) ^ 2 = x ^ 2 - 1 := Real.sq_sqrt hs0.le
  have hinv0 : (0 : ℝ) < x⁻¹ := by positivity
  have hinv1 : x⁻¹ < 1 := by
    rw [inv_lt_one_iff₀]
    right
    exact hx
  have hnum : HasDerivAt (fun y : ℝ => Real.arccos y⁻¹)
      (-(1 / Real.sqrt (1 - x⁻¹ ^ 2)) * -(x ^ 2)⁻¹) x := by
    have h1 := (Real.hasDerivAt_arccos (by linarith) (by linarith)).comp x
      (hasDerivAt_inv hx0.ne')
    simpa [Function.comp] using h1
  have hp : HasDerivAt (fun y : ℝ => y ^ 2 - 1) (2 * x) x := by
    simpa using (hasDerivAt_pow 2 x).sub_const 1
  have hden : HasDerivAt (fun y : ℝ => Real.sqrt (y ^ 2 - 1))
      ((2 * x) / (2 * Real.sqrt (x ^ 2 - 1))) x := hp.sqrt hs0.ne'
  have hquot := hnum.div hden hsne
  have hev : (fun y : ℝ => Real.arccos y⁻¹ / Real.sqrt (y ^ 2 - 1)) =ᶠ[nhds x] Aker := by
    filter_upwards [Ioi_mem_nhds hx] with y hy
    rw [Aker_eq_gt hy, one_div]
  have hA := hquot.congr_of_eventuallyEq hev.symm
  convert hA using 1
  have hsub : Real.sqrt (1 - x⁻¹ ^ 2) = Real.sqrt (x ^ 2 - 1) / x := by
    rw [← sqrt_one_sub_inv_sq hx, one_div]
  rw [hsub]
  unfold Sker
  rw [Aker_eq_gt hx, one_div]
  field_simp
  ring_nf

theorem hasDerivAt_Aker_lt {x : ℝ} (hx0 : 0 < x) (hx : x < 1) :
    HasDerivAt Aker (x * Sker x - 1 / x) x := by
  have hr : 1 < x⁻¹ := by
    rw [one_lt_inv_iff₀]
    exact ⟨hx0, hx⟩
  have hs0 : 0 < 1 - x ^ 2 := by nlinarith
  have hsne : Real.sqrt (1 - x ^ 2) ≠ 0 := Real.sqrt_ne_zero'.mpr hs0
  have hspos : 0 < Real.sqrt (1 - x ^ 2) := Real.sqrt_pos.mpr hs0
  have hs2 : Real.sqrt (1 - x ^ 2) ^ 2 = 1 - x ^ 2 := Real.sq_sqrt hs0.le
  have hnum : HasDerivAt (fun y : ℝ => arcosh y⁻¹)
      (1 / Real.sqrt (x⁻¹ ^ 2 - 1) * -(x ^ 2)⁻¹) x := by
    have h1 := (hasDerivAt_arcosh hr).comp x (hasDerivAt_inv hx0.ne')
    simpa [Function.comp] using h1
  have hp : HasDerivAt (fun y : ℝ => 1 - y ^ 2) (-(2 * x)) x := by
    simpa using (hasDerivAt_pow 2 x).const_sub 1
  have hden : HasDerivAt (fun y : ℝ => Real.sqrt (1 - y ^ 2))
      ((-(2 * x)) / (2 * Real.sqrt (1 - x ^ 2))) x := hp.sqrt hs0.ne'
  have hquot := hnum.div hden hsne
  have hev : (fun y : ℝ => arcosh y⁻¹ / Real.sqrt (1 - y ^ 2)) =ᶠ[nhds x] Aker := by
    filter_upwards [Iio_mem_nhds hx] with y hy
    rw [Aker_eq_lt hy, one_div]
  have hA := hquot.congr_of_eventuallyEq hev.symm
  convert hA using 1
  have hsub : Real.sqrt (x⁻¹ ^ 2 - 1) = Real.sqrt (1 - x ^ 2) / x := by
    rw [← sqrt_inv_sq_sub_one hx0 hx, one_div]
  have hx21 : x ^ 2 - 1 ≠ 0 := by nlinarith
  rw [hsub, hs2]
  unfold Sker
  rw [Aker_eq_lt hx, one_div]
  field_simp
  ring

theorem hasDerivAt_Aker {x : ℝ} (hx0 : 0 < x) (hne : x ≠ 1) :
    HasDerivAt Aker (x * Sker x - 1 / x) x := by
  rcases lt_or_gt_of_ne hne with h | h
  · exact hasDerivAt_Aker_lt hx0 h
  · exact hasDerivAt_Aker_gt h

theorem hasDerivAt_h {x : ℝ} (hx0 : 0 < x) (hne : x ≠ 1) :
    HasDerivAt NFW._h (x * Sker x) x := by
  have hlog : HasDerivAt (fun y : ℝ => Real.log (y / 2)) ((1 / 2) / (x / 2)) x :=
    ((hasDerivAt_id x).div_const 2).log (by positivity)
  have hsum := hlog.add (hasDerivAt_Aker hx0 hne)
  have hev : (fun y : ℝ => Real.log (y / 2) + Aker y) =ᶠ[nhds x] NFW._h := by
    filter_upwards [isOpen_ne.mem_nhds hne] with y hy
    exact (h_eq_log_add_Aker hy).symm
  have hfin := hsum.congr_of_eventuallyEq hev.symm
  convert hfin using 1
  field_simp

theorem hasDerivAt_Sker {x : ℝ} (hx0 : 0 < x) (hne : x ≠ 1) :
    HasDerivAt Sker (SkerDeriv x) x := by
  have hnum : HasDerivAt (fun y : ℝ => 1 - Aker y) (-(x * Sker x - 1 / x)) x :=
    (hasDerivAt_Aker hx0 hne).const_sub 1
  have hden : HasDerivAt (fun y : ℝ => y ^ 2 - 1) (2 * x) x := by
    simpa using (hasDerivAt_pow 2 x).sub_const 1
  have hx21 : x ^ 2 - 1 ≠ 0 := by
    rcases lt_or_gt_of_ne hne with h | h <;> nlinarith
  have hquot := hnum.div hden hx21
  have hS : HasDerivAt Sker
      ((-(x * Sker x - 1 / x) * (x ^ 2 - 1) - (1 - Aker x) * (2 * x)) / (x ^ 2 - 1) ^ 2)
      x := hquot
  convert hS using 1
  unfold SkerDeriv Sker
  field_simp
  ring

theorem hasDerivAt_Gfun {x : ℝ} (hx0 : 0 < x) (hne : x ≠ 1) :
    HasDerivAt Gfun (x * Sker x - x ^ 2 * SkerDeriv x) x := by
  have hh := hasDerivAt_h hx0 hne
  have hS := hasDerivAt_Sker hx0 hne
  have hsq : HasDerivAt (fun y : ℝ => y ^ 2) (2 * x) x := by
    simpa using hasDerivAt_pow 2 x
  have h2 := (hh.const_mul 3).sub (hsq.mul hS)
  have hG : HasDerivAt Gfun
      (3 * (x * Sker x) - (2 * x * Sker x + x ^ 2 * SkerDeriv x)) x := h2
  convert hG using 1
  ring

theorem Aker_frac_neg {x θ s : ℝ} (hx0 : 0 < x) (hspos : 0 < s)
    (hψ : 0 < (2 + (1 / x) ^ 2) * (s / x) - 3 * θ * (1 / x)) :
    3 * x * (θ / s) - 1 / x - 2 * x < 0 := by
  have hψ' : (2 + (1 / x) ^ 2) * (s / x) - 3 * θ * (1 / x)
      = ((2 * x ^ 2 + 1) * s - 3 * θ * x ^ 2) / x ^ 3 := by
    field_simp
    ring
  rw [hψ'] at hψ
  have h3 : 0 < (2 * x ^ 2 + 1) * s - 3 * θ * x ^ 2 := by
    have h4 := mul_pos hψ (pow_pos hx0 3)
    rwa [div_mul_cancel₀ _ (pow_pos hx0 3).ne'] at h4
  have hfrac : 3 * x * (θ / s) - 1 / x - 2 * x
      = (3 * θ * x ^ 2 - (2 * x ^ 2 + 1) * s) / (s * x) := by
    field_simp
    ring
  rw [hfrac]
  exact div_neg_of_neg_of_pos (by linarith) (mul_pos hspos hx0)

theorem SkerDeriv_neg {x : ℝ} (hx0 : 0 < x) (hne : x ≠ 1) : SkerDeriv x < 0 := by
  have hx21 : 0 < ((x : ℝ) ^ 2 - 1) ^ 2 := by
    have h : x ^ 2 - 1 ≠ 0 := by
      rcases lt_or_gt_of_ne hne with h | h <;> nlinarith
    positivity
  unfold SkerDeriv
  apply div_neg_of_neg_of_pos _ hx21
  rcases lt_or_gt_of_ne hne with h | h
  · have hr : 1 < 1 / x := (one_lt_div hx0).mpr h
    have hθ0 : 0 < arcosh (1 / x) := arcosh_pos hr
    have hcosh := cosh_arcosh hr.le
    have hsinh : Real.sinh (arcosh (1 / x)) = Real.sqrt (1 - x ^ 2) / x := by
      rw [sinh_arcosh hr.le, sqrt_inv_sq_sub_one hx0 h]
    have hs0 : 0 < 1 - x ^ 2 := by nlinarith
    have hspos := Real.sqrt_pos.mpr hs0
    have hψ := psiHyp_pos hθ0
    unfold psiHyp at hψ
    rw [hcosh, hsinh] at hψ
    rw [Aker_eq_lt h]
    exact Aker_frac_neg hx0 hspos (by linarith)
  · obtain ⟨hθ0, hθ2, hcos, hsin, _⟩ := arccos_inv_facts h
    have hs0 : 0 < x ^ 2 - 1 := by nlinarith
    have hspos := Real.sqrt_pos.mpr hs0
    have hψ := psiTrig_pos hθ0 hθ2
    unfold psiTrig at hψ
    rw [hcos, hsin] at hψ
    rw [Aker_eq_gt h]
    exact Aker_frac_neg hx0 hspos (by linarith)

theorem Gfun_deriv_pos {x : ℝ} (hx0 : 0 < x) (hne : x ≠ 1) :
    0 < x * Sker x - x ^ 2 * SkerDeriv x := by
  have h1 : 0 < x * Sker x := mul_pos hx0 (Sker_pos hx0 hne)
  have h2 : x ^ 2 * SkerDeriv x < 0 :=
    mul_neg_of_pos_of_neg (by positivity) (SkerDeriv_neg hx0 hne)
  linarith

theorem h_bounds_gt {x : ℝ} (hx : 1 < x) :
    Real.log (x / 2) + 1 / x < NFW._h x ∧ NFW._h x < Real.log (x / 2) + 1 := by
  rw [h_eq_log_add_Aker (ne_of_gt hx)]
  have hb := Aker_bounds_gt hx
  exact ⟨by linarith [hb.1], by linarith [hb.2]⟩

theorem h_bounds_lt {x : ℝ} (hx0 : 0 < x) (hx : x < 1) :
    Real.log (x / 2) + 1 < NFW._h x ∧ NFW._h x < Real.log (x / 2) + 1 / x := by
  rw [h_eq_log_add_Aker (ne_of_lt hx)]
  have hb := Aker_bounds_lt hx0 hx
  exact ⟨by linarith [hb.1], by linarith [hb.2]⟩

theorem continuousAt_h_one : ContinuousAt NFW._h 1 := by
  have hlo : ContinuousAt (fun y : ℝ => Real.log (y / 2) + min 1 (1 / y)) 1 := by
    apply ContinuousAt.add
    · exact (Real.continuousAt_log (by norm_num)).comp (continuousAt_id.div_const 2)
    · exact continuousAt_const.min (continuousAt_const.div continuousAt_id one_ne_zero)
  have hhi : ContinuousAt (fun y : ℝ => Real.log (y / 2) + max 1 (1 / y)) 1 := by
    apply ContinuousAt.add
    · exact (Real.continuousAt_log (by norm_num)).comp (continuousAt_id.div_const 2)
    · exact continuousAt_const.max (continuousAt_const.div continuousAt_id one_ne_zero)
  have hlov : Real.log ((1 : ℝ) / 2) + min 1 (1 / 1) = NFW._h 1 := by
    norm_num [NFW._h]
    ring
  have hhiv : Real.log ((1 : ℝ) / 2) + max 1 (1 / 1) = NFW._h 1 := by
    norm_num [NFW._h]
    ring
  have hh1 : NFW._h 1 = -Real.log 2 + 1 := by
    have h1 : NFW._h 1 = 1 + Real.log (1 / 2) := by simp [NFW._h]
    rw [h1, one_div, Real.log_inv]
    ring
  have hloT : Filter.Tendsto (fun y : ℝ => Real.log (y / 2) + min 1 (1 / y))
      (nhds 1) (nhds (NFW._h 1)) := by
    rw [hh1]
    simpa using hlo.tendsto
  have hhiT : Filter.Tendsto (fun y : ℝ => Real.log (y / 2) + max 1 (1 / y))
      (nhds 1) (nhds (NFW._h 1)) := by
    rw [hh1]
    simpa using hhi.tendsto
  have hev1 : ∀ᶠ y in nhds (1 : ℝ), Real.log (y / 2) + min 1 (1 / y) ≤ NFW._h y := by
    filter_upwards [Ioi_mem_nhds (zero_lt_one : (0 : ℝ) < 1)] with y hy
    rcases lt_trichotomy y 1 with h | h | h
    · have hmin : min 1 (1 / y) = 1 := min_eq_left (by
        rw [le_div_iff hy]
        linarith)
      rw [hmin]
      exact (h_bounds_lt hy h).1.le
    · subst h
      rw [← hlov]
    · have hmin : min 1 (1 / y) = 1 / y := min_eq_right (by
        rw [div_le_one (by linarith)]
        linarith)
      rw [hmin]
      exact (h_bounds_gt h).1.le
  have hev2 : ∀ᶠ y in nhds (1 : ℝ), NFW._h y ≤ Real.log (y / 2) + max 1 (1 / y) := by
    filter_upwards [Ioi_mem_nhds (zero_lt_one : (0 : ℝ) < 1)] with y hy
    rcases lt_trichotomy y 1 with h | h | h
    · have hmax : max 1 (1 / y) = 1 / y := max_eq_right (by
        rw [le_div_iff hy]
        linarith)
      rw [hmax]
      exact (h_bounds_lt hy h).2.le
    · subst h
      rw [← hhiv]
    · have hmax : max 1 (1 / y) = 1 := max_eq_left (by
        rw [div_le_one (by linarith)]
        linarith)
      rw [hmax]
      exact (h_bounds_gt h).2.le
  exact tendsto_of_tendsto_of_tendsto_of_le_of_le' hloT hhiT hev1 hev2

theorem h_strictMonoOn_Ioo : StrictMonoOn NFW._h (Set.Ioo 0 1) := by
  apply strictMonoOn_of_deriv_pos (convex_Ioo 0 1)
  · intro z hz
    exact (hasDerivAt_h hz.1 (ne_of_lt hz.2)).continuousAt.continuousWithinAt
  · intro z hz
    rw [interior_Ioo] at hz
    rw [(hasDerivAt_h hz.1 (ne_of_lt hz.2)).deriv]
    exact mul_pos hz.1 (Sker_pos hz.1 (ne_of_lt hz.2))

theorem h_strictMonoOn_Ici : StrictMonoOn NFW._h (Set.Ici 1) := by
  apply strictMonoOn_of_deriv_pos (convex_Ici 1)
  · intro z hz
    rcases eq_or_lt_of_le (Set.mem_Ici.mp hz) with h | h
    · rw [← h]
      exact continuousAt_h_one.continuousWithinAt
    · exact (hasDerivAt_h (by linarith) (ne_of_gt h)).continuousAt.continuousWithinAt
  · intro z hz
    rw [interior_Ici, Set.mem_Ioi] at hz
    rw [(hasDerivAt_h (by linarith) (ne_of_gt hz)).deriv]
    exact mul_pos (by linarith) (Sker_pos (by linarith) (ne_of_gt hz))

theorem Gfun_strictMonoOn_Ioo : StrictMonoOn Gfun (Set.Ioo 0 1) := by
  apply strictMonoOn_of_deriv_pos (convex_Ioo 0 1)
  · intro z hz
    exact (hasDerivAt_Gfun hz.1 (ne_of_lt hz.2)).continuousAt.continuousWithinAt
  · intro z hz
    rw [interior_Ioo] at hz
    rw [(hasDerivAt_Gfun hz.1 (ne_of_lt hz.2)).deriv]
    exact Gfun_deriv_pos hz.1 (ne_of_lt hz.2)

theorem Gfun_strictMonoOn_Ioi : StrictMonoOn Gfun (Set.Ioi 1) := by
  apply strictMonoOn_of_deriv_pos (convex_Ioi 1)
  · intro z hz
    rw [Set.mem_Ioi] at hz
    exact (hasDerivAt_Gfun (by linarith) (ne_of_gt hz)).continuousAt.continuousWithinAt
  · intro z hz
    rw [interior_Ioi, Set.mem_Ioi] at hz
    rw [(hasDerivAt_Gfun (by linarith) (ne_of_gt hz)).deriv]
    exact Gfun_deriv_pos (by linarith) (ne_of_gt hz)

theorem tendsto_sq_mul_log_zero :
    Filter.Tendsto (fun x : ℝ => x ^ 2 * Real.log x)
      (nhdsWithin 0 (Set.Ioi 0)) (nhds 0) := by
  have hmem : Set.Ioo (0 : ℝ) 1 ∈ nhdsWithin 0 (Set.Ioi 0) :=
    Ioo_mem_nhdsWithin_Ioi ⟨le_refl 0, zero_lt_one⟩
  have hg : Filter.Tendsto (fun x : ℝ => -x) (nhdsWithin 0 (Set.Ioi 0)) (nhds 0) := by
    have h1 : Filter.Tendsto (fun x : ℝ => -x) (nhds 0) (nhds 0) := by
      simpa using (continuous_neg.tendsto (0 : ℝ))
    exact h1.mono_left nhdsWithin_le_nhds
  apply tendsto_of_tendsto_of_tendsto_of_le_of_le' hg tendsto_const_nhds
  · filter_upwards [hmem] with x hx
    have hx0 : 0 < x := hx.1
    have hinv1 : (1 : ℝ) / x ≠ 1 := by
      have : 1 < 1 / x := (one_lt_div hx0).mpr hx.2
      linarith
    have h1 : Real.log (1 / x) < 1 / x - 1 :=
      Real.log_lt_sub_one_of_pos (by positivity) hinv1
    rw [one_div, Real.log_inv] at h1
    have h2 : -Real.log x < x⁻¹ := by linarith
    have h3 : x ^ 2 * -Real.log x < x ^ 2 * x⁻¹ :=
      mul_lt_mul_of_pos_left h2 (by positivity)
    have h4 : x ^ 2 * x⁻¹ = x := by
      field_simp
      ring
    nlinarith [h3, h4]
  · filter_upwards [hmem] with x hx
    exact mul_nonpos_of_nonneg_of_nonpos (by positivity)
      (Real.log_nonpos hx.1.le hx.2.le)

theorem tendsto_h_zero :
    Filter.Tendsto NFW._h (nhdsWithin 0 (Set.Ioi 0)) (nhds 0) := by
  have hmem : Set.Ioo (0 : ℝ) 1 ∈ nhdsWithin 0 (Set.Ioi 0) :=
    Ioo_mem_nhdsWithin_Ioi ⟨le_refl 0, zero_lt_one⟩
  have hsq : Filter.Tendsto (fun x : ℝ => Real.sqrt (1 - x ^ 2))
      (nhdsWithin 0 (Set.Ioi 0)) (nhds 1) := by
    have hc : ContinuousAt (fun x : ℝ => Real.sqrt (1 - x ^ 2)) 0 :=
      Real.continuous_sqrt.continuousAt.comp
        ((continuous_const.sub (continuous_pow 2)).continuousAt)
    have h1 : Filter.Tendsto (fun x : ℝ => Real.sqrt (1 - x ^ 2)) (nhds 0) (nhds 1) := by
      simpa using hc.tendsto
    exact h1.mono_left nhdsWithin_le_nhds
  have hadd1 : Filter.Tendsto (fun x : ℝ => Real.sqrt (1 - x ^ 2) + 1)
      (nhdsWithin 0 (Set.Ioi 0)) (nhds (1 + 1)) := hsq.add tendsto_const_nhds
  have hden1 : Filter.Tendsto
      (fun x : ℝ => Real.sqrt (1 - x ^ 2) * (Real.sqrt (1 - x ^ 2) + 1))
      (nhdsWithin 0 (Set.Ioi 0)) (nhds 2) := by
    have h := hsq.mul hadd1
    norm_num at h
    exact h
  have hden : Filter.Tendsto
      (fun x : ℝ => -(1 / (Real.sqrt (1 - x ^ 2) * (Real.sqrt (1 - x ^ 2) + 1))))
      (nhdsWithin 0 (Set.Ioi 0)) (nhds (-(1 / 2))) :=
    (tendsto_const_nhds.div hden1 two_ne_zero).neg
  have hT1 := tendsto_sq_mul_log_zero.mul hden
  rw [zero_mul] at hT1
  have hnum3 : Filter.Tendsto (fun x : ℝ => Real.log (1 + Real.sqrt (1 - x ^ 2)))
      (nhdsWithin 0 (Set.Ioi 0)) (nhds (Real.log 2)) := by
    have hc := (Real.continuousAt_log (by norm_num : (2 : ℝ) ≠ 0)).tendsto
    have h12 : Filter.Tendsto (fun x : ℝ => 1 + Real.sqrt (1 - x ^ 2))
        (nhdsWithin 0 (Set.Ioi 0)) (nhds (1 + 1)) :=
      tendsto_const_nhds.add hsq
    norm_num at h12
    exact hc.comp h12
  have hT3 : Filter.Tendsto
      (fun x : ℝ => Real.log (1 + Real.sqrt (1 - x ^ 2)) / Real.sqrt (1 - x ^ 2))
      (nhdsWithin 0 (Set.Ioi 0)) (nhds (Real.log 2 / 1)) := hnum3.div hsq one_ne_zero
  have htotal' : Filter.Tendsto
      (fun x : ℝ =>
        x ^ 2 * Real.log x * -(1 / (Real.sqrt (1 - x ^ 2) * (Real.sqrt (1 - x ^ 2) + 1)))
          - Real.log 2
          + Real.log (1 + Real.sqrt (1 - x ^ 2)) / Real.sqrt (1 - x ^ 2))
      (nhdsWithin 0 (Set.Ioi 0)) (nhds ((0 : ℝ) - Real.log 2 + Real.log 2 / 1)) :=
    (hT1.sub tendsto_const_nhds).add hT3
  rw [show (0 : ℝ) - Real.log 2 + Real.log 2 / 1 = 0 by norm_num] at htotal'
  apply htotal'.congr'
  filter_upwards [hmem] with x hx
  have hx0 : 0 < x := hx.1
  have hx1 : x < 1 := hx.2
  have hs0 : 0 < 1 - x ^ 2 := by nlinarith
  have hspos : 0 < Real.sqrt (1 - x ^ 2) := Real.sqrt_pos.mpr hs0
  have hs2 : Real.sqrt (1 - x ^ 2) ^ 2 = 1 - x ^ 2 := Real.sq_sqrt hs0.le
  have harc : arcosh (1 / x)
      = Real.log (1 + Real.sqrt (1 - x ^ 2)) - Real.log x := by
    unfold arcosh
    rw [sqrt_inv_sq_sub_one hx0 hx1]
    rw [show 1 / x + Real.sqrt (1 - x ^ 2) / x = (1 + Real.sqrt (1 - x ^ 2)) / x by ring]
    exact Real.log_div (by positivity) hx0.ne'
  rw [h_eq_log_add_Aker (ne_of_lt hx1), Aker_eq_lt hx1, harc]
  rw [show x / 2 = x / 2 from rfl, Real.log_div hx0.ne' two_ne_zero]
  field_simp
  linear_combination (-(Real.log x * Real.sqrt (1 - x ^ 2) ^ 2)) * hs2

theorem tendsto_sq_mul_Sker_zero :
    Filter.Tendsto (fun x : ℝ => x ^ 2 * Sker x) (nhdsWithin 0 (Set.Ioi 0)) (nhds 0) := by
  have hmem : Set.Ioo (0 : ℝ) 1 ∈ nhdsWithin 0 (Set.Ioi 0) :=
    Ioo_mem_nhdsWithin_Ioi ⟨le_refl 0, zero_lt_one⟩
  have hh : Filter.Tendsto (fun x : ℝ => x) (nhdsWithin 0 (Set.Ioi 0)) (nhds 0) :=
    (continuous_id.tendsto 0).mono_left nhdsWithin_le_nhds
  apply tendsto_of_tendsto_of_tendsto_of_le_of_le' tendsto_const_nhds hh
  · filter_upwards [hmem] with x hx
    exact mul_nonneg (by positivity) (Sker_pos hx.1 (ne_of_lt hx.2)).le
  · filter_upwards [hmem] with x hx
    have hx0 : 0 < x := hx.1
    have hx1 : x < 1 := hx.2
    have hs0 : 0 < 1 - x ^ 2 := by nlinarith
    have hb := Aker_bounds_lt hx0 hx1
    have hSker_eq : Sker x = (Aker x - 1) / (1 - x ^ 2) := by
      unfold Sker
      rw [show (1 - Aker x) = -(Aker x - 1) by ring,
        show (x ^ 2 - 1) = -(1 - x ^ 2) by ring, neg_div_neg_eq]
    rw [hSker_eq, mul_div_assoc']
    rw [div_le_iff hs0]
    have h3 : x ^ 2 * Aker x < x := by
      have h4 := mul_lt_mul_of_pos_left hb.2 (pow_pos hx0 2)
      have h5 : x ^ 2 * (1 / x) = x := by
        field_simp
        ring
      linarith
    nlinarith [h3]

theorem tendsto_Gfun_zero :
    Filter.Tendsto Gfun (nhdsWithin 0 (Set.Ioi 0)) (nhds 0) := by
  have h1 : Filter.Tendsto (fun x : ℝ => 3 * NFW._h x - x ^ 2 * Sker x)
      (nhdsWithin 0 (Set.Ioi 0)) (nhds (3 * 0 - 0)) :=
    (tendsto_h_zero.const_mul 3).sub tendsto_sq_mul_Sker_zero
  rw [show (3 : ℝ) * 0 - 0 = 0 by norm_num] at h1
  exact h1

theorem h_one : NFW._h 1 = 1 - Real.log 2 := by
  have h1 : NFW._h 1 = 1 + Real.log (1 / 2) := by simp [NFW._h]
  rw [h1, one_div, Real.log_inv]
  ring

theorem h_pos {x : ℝ} (hx0 : 0 < x) : 0 < NFW._h x := by
  have hone : (0 : ℝ) < NFW._h 1 := by
    rw [h_one]
    have := Real.log_two_lt_d9
    linarith
  have hIoo : ∀ z, z ∈ Set.Ioo (0 : ℝ) 1 → 0 < NFW._h z := by
    intro z hz
    have hmem' : z / 2 ∈ Set.Ioo (0 : ℝ) 1 := ⟨by linarith [hz.1], by linarith [hz.2]⟩
    have hlt : NFW._h (z / 2) < NFW._h z :=
      h_strictMonoOn_Ioo hmem' hz (by linarith [hz.1])
    have hge : 0 ≤ NFW._h (z / 2) := by
      apply le_of_tendsto tendsto_h_zero
      filter_upwards [Ioo_mem_nhdsWithin_Ioi ⟨le_refl (0 : ℝ), hmem'.1⟩] with y hy
      exact (h_strictMonoOn_Ioo ⟨hy.1, lt_trans hy.2 hmem'.2⟩ hmem' hy.2).le
    linarith
  rcases lt_trichotomy x 1 with h | h | h
  · exact hIoo x ⟨hx0, h⟩
  · exact h ▸ hone
  · have := h_strictMonoOn_Ici Set.left_mem_Ici (Set.mem_Ici.mpr h.le) h
    linarith

theorem Gfun_pos {x : ℝ} (hx0 : 0 < x) (hne : x ≠ 1) : 0 < Gfun x := by
  rcases lt_or_gt_of_ne hne with h | h
  · have hmem' : x / 2 ∈ Set.Ioo (0 : ℝ) 1 := ⟨by linarith, by linarith⟩
    have hx' : x ∈ Set.Ioo (0 : ℝ) 1 := ⟨hx0, h⟩
    have hlt : Gfun (x / 2) < Gfun x := Gfun_strictMonoOn_Ioo hmem' hx' (by linarith)
    have hge : 0 ≤ Gfun (x / 2) := by
      apply le_of_tendsto tendsto_Gfun_zero
      filter_upwards [Ioo_mem_nhdsWithin_Ioi ⟨le_refl (0 : ℝ), hmem'.1⟩] with y hy
      exact (Gfun_strictMonoOn_Ioo ⟨hy.1, lt_trans hy.2 hmem'.2⟩ hmem' hy.2).le
    linarith
  · have hy1 : 1 < min ((1 + x) / 2) (5 / 4) := lt_min (by linarith) (by norm_num)
    have hyle : min ((1 + x) / 2) (5 / 4) ≤ (1 + x) / 2 := min_le_left _ _
    have hyx : min ((1 + x) / 2) (5 / 4) < x := by linarith
    have hy54 : min ((1 + x) / 2) (5 / 4) ≤ 5 / 4 := min_le_right _ _
    set y := min ((1 + x) / 2) (5 / 4) with hydef
    have hhy : NFW._h 1 < NFW._h y :=
      h_strictMonoOn_Ici Set.left_mem_Ici (Set.mem_Ici.mpr hy1.le) hy1
    have hSy : Sker y < 1 / 3 := Sker_lt_third_gt hy1
    have hSy0 : 0 < Sker y := Sker_pos (by linarith) (ne_of_gt hy1)
    have hy2 : y ^ 2 ≤ (5 / 4) ^ 2 := pow_le_pow_left (by linarith) hy54 2
    have hGy : 3 * NFW._h 1 - (5 / 4) ^ 2 * (1 / 3) < Gfun y := by
      unfold Gfun
      have h1 : y ^ 2 * Sker y < (5 / 4) ^ 2 * (1 / 3) := by
        nlinarith [hSy0, hSy, hy2]
      nlinarith [hhy, h1]
    have hGx : Gfun y < Gfun x :=
      Gfun_strictMonoOn_Ioi (Set.mem_Ioi.mpr hy1) (Set.mem_Ioi.mpr (by linarith)) hyx
    have hpos : (0 : ℝ) < 3 * NFW._h 1 - (5 / 4) ^ 2 * (1 / 3) := by
      rw [h_one]
      have := Real.log_two_lt_d9
      nlinarith
    linarith

theorem F_hasDerivAt {ξ t : ℝ} (hξ : 0 < ξ) (ht : 0 < t) (htne : t ≠ ξ) :
    HasDerivAt (fun u : ℝ => u ^ 3 * NFW._h (ξ / u)) (t ^ 2 * Gfun (ξ / t)) t := by
  have hx0 : 0 < ξ / t := by positivity
  have hxne : ξ / t ≠ 1 := by
    intro hcontra
    apply htne
    field_simp at hcontra
    linarith
  have hq : HasDerivAt (fun u : ℝ => ξ / u) (ξ * -(t ^ 2)⁻¹) t := by
    simpa [div_eq_mul_inv] using (hasDerivAt_inv ht.ne').const_mul ξ
  have hcomp := (hasDerivAt_h hx0 hxne).comp t hq
  have hcube : HasDerivAt (fun u : ℝ => u ^ 3) (3 * t ^ 2) t := by
    simpa using hasDerivAt_pow 3 t
  have hmul := hcube.mul hcomp
  convert hmul using 1
  unfold Gfun
  field_simp
  ring

theorem F_continuousWithinAt {ξ : ℝ} (hξ : 0 < ξ) (S : Set ℝ) :
    ContinuousWithinAt (fun u : ℝ => u ^ 3 * NFW._h (ξ / u)) S ξ := by
  have h1 : ContinuousAt (fun u : ℝ => ξ / u) ξ :=
    continuousAt_const.div continuousAt_id hξ.ne'
  have h2 : ContinuousAt NFW._h (ξ / ξ) := by
    rw [div_self hξ.ne']
    exact continuousAt_h_one
  exact (((continuous_pow 3).continuousAt).mul (h2.comp h1)).continuousWithinAt

theorem F_strictMonoOn {ξ : ℝ} (hξ : 0 < ξ) :
    StrictMonoOn (fun t : ℝ => t ^ 3 * NFW._h (ξ / t)) (Set.Ioi 0) := by
  have M1 : StrictMonoOn (fun t : ℝ => t ^ 3 * NFW._h (ξ / t)) (Set.Ioc 0 ξ) := by
    apply strictMonoOn_of_deriv_pos (convex_Ioc 0 ξ)
    · intro t ht
      rcases eq_or_lt_of_le ht.2 with h | h
      · rw [h]
        exact F_continuousWithinAt hξ _
      · exact (F_hasDerivAt hξ ht.1 (ne_of_lt h)).continuousAt.continuousWithinAt
    · intro t ht
      rw [interior_Ioc] at ht
      rw [(F_hasDerivAt hξ ht.1 (ne_of_lt ht.2)).deriv]
      have hgt1 : 1 < ξ / t := (one_lt_div ht.1).mpr ht.2
      exact mul_pos (pow_pos ht.1 2) (Gfun_pos (div_pos hξ ht.1) (ne_of_gt hgt1))
  have M2 : StrictMonoOn (fun t : ℝ => t ^ 3 * NFW._h (ξ / t)) (Set.Ici ξ) := by
    apply strictMonoOn_of_deriv_pos (convex_Ici ξ)
    · intro t ht
      rcases eq_or_lt_of_le (Set.mem_Ici.mp ht) with h | h
      · rw [← h]
        exact F_continuousWithinAt hξ _
      · exact (F_hasDerivAt hξ (lt_trans hξ h) (ne_of_gt h)).continuousAt.continuousWithinAt
    · intro t ht
      rw [interior_Ici, Set.mem_Ioi] at ht
      have ht0 : 0 < t := lt_trans hξ ht
      rw [(F_hasDerivAt hξ ht0 (ne_of_gt ht)).deriv]
      have hlt1 : ξ / t < 1 := (div_lt_one ht0).mpr ht
      exact mul_pos (pow_pos ht0 2) (Gfun_pos (div_pos hξ ht0) (ne_of_lt hlt1))
  intro a ha b hb hab
  rcases le_or_lt b ξ with hbξ | hbξ
  · exact M1 ⟨ha, le_of_lt (lt_of_lt_of_le hab hbξ)⟩ ⟨hb, hbξ⟩ hab
  · rcases le_or_lt ξ a with hξa | hξa
    · exact M2 (Set.mem_Ici.mpr hξa) (Set.mem_Ici.mpr hbξ.le) hab
    · calc a ^ 3 * NFW._h (ξ / a)
          < ξ ^ 3 * NFW._h (ξ / ξ) := M1 ⟨ha, hξa.le⟩ ⟨hξ, le_refl ξ⟩ hξa
        _ < b ^ 3 * NFW._h (ξ / b) := M2 Set.left_mem_Ici (Set.mem_Ici.mpr hbξ.le) hbξ

theorem log_denom_pos {c : ℝ} (hc : 0 < c) :
    0 < Real.log (1 + c) - c / (1 + c) := by
  have h1c : (0 : ℝ) < 1 + c := by linarith
  have h1 : Real.log ((1 + c)⁻¹) < (1 + c)⁻¹ - 1 := by
    apply Real.log_lt_sub_one_of_pos (by positivity)
    intro hcontra
    rw [inv_eq_one] at hcontra
    linarith
  rw [Real.log_inv] at h1
  have h3 : c / (1 + c) = 1 - (1 + c)⁻¹ := by
    field_simp
  rw [h3]
  linarith

theorem get_scale_density_pos (L : NFW)
    (hρ : 0 < L.cosmology.critical_density L.z_l) (hc : 0 < L.c) :
    0 < L.get_scale_density := by
  unfold NFW.get_scale_density
  apply div_pos
  · have hΔ : (0 : ℝ) < DELTA := by norm_num [DELTA]
    positivity
  · exact log_denom_pos hc

theorem get_scale_radius_pos (L : NFW)
    (hρ : 0 < L.cosmology.critical_density L.z_l) (hm : 0 < L.m) (hc : 0 < L.c) :
    0 < L.get_scale_radius := by
  unfold NFW.get_scale_radius
  have hπ : (0 : ℝ) < π := Real.pi_pos
  have hΔ : (0 : ℝ) < DELTA := by norm_num [DELTA]
  have hbase : 0 < 3 * L.m / (4 * π * DELTA * L.cosmology.critical_density L.z_l) := by
    positivity
  exact mul_pos (by positivity) (Real.rpow_pos_of_pos hbase _)

/-- C8 counterexample: at a query point exactly at the lens center the
deflection vector is `(0, 0)` for every mass (both components carry the
factor `x' = y' = 0`), so its magnitude is NOT strictly increasing in `m`:
with softening `s = 1`, center `(0, 0)` and query `(0, 0)`, the magnitudes at
`m = 1` and `m = 2` are both `0`. -/
theorem deflection_magnitude_center_counterexample :
    (1 : ℝ) < 2 ∧
      Real.sqrt (((NFW.mk unitCosmology unitConsts 0 0 0 1 1 1).deflection_angle_hat 0 0 2).1 ^ 2
          + ((NFW.mk unitCosmology unitConsts 0 0 0 1 1 1).deflection_angle_hat 0 0 2).2 ^ 2)
        = Real.sqrt (((NFW.mk unitCosmology unitConsts 0 0 0 2 1 1).deflection_angle_hat 0 0 2).1 ^ 2
          + ((NFW.mk unitCosmology unitConsts 0 0 0 2 1 1).deflection_angle_hat 0 0 2).2 ^ 2) := by
  refine ⟨by norm_num, ?_⟩
  have h1 : ∀ m : ℝ, ((NFW.mk unitCosmology unitConsts 0 0 0 m 1 1).deflection_angle_hat 0 0 2).1 = 0 := by
    intro m
    show 16 * π * (1 : ℝ) * (NFW.mk unitCosmology unitConsts 0 0 0 m 1 1).get_scale_density
        * (NFW.mk unitCosmology unitConsts 0 0 0 m 1 1).get_scale_radius ^ 3
        * NFW._h (1 * (Real.sqrt (((0 : ℝ) - 0) ^ 2 + ((0 : ℝ) - 0) ^ 2) + 1) * 1
            / (NFW.mk unitCosmology unitConsts 0 0 0 m 1 1).get_scale_radius)
        * 1 / (1 * (Real.sqrt (((0 : ℝ) - 0) ^ 2 + ((0 : ℝ) - 0) ^ 2) + 1) * 1)
        * ((0 : ℝ) - 0) / (Real.sqrt (((0 : ℝ) - 0) ^ 2 + ((0 : ℝ) - 0) ^ 2) + 1) = 0
    rw [show ((0 : ℝ) - 0) = 0 by ring]
    rw [mul_zero, zero_div]
  have h2 : ∀ m : ℝ, ((NFW.mk unitCosmology unitConsts 0 0 0 m 1 1).deflection_angle_hat 0 0 2).2 = 0 := by
    intro m
    show 16 * π * (1 : ℝ) * (NFW.mk unitCosmology unitConsts 0 0 0 m 1 1).get_scale_density
        * (NFW.mk unitCosmology unitConsts 0 0 0 m 1 1).get_scale_radius ^ 3
        * NFW._h (1 * (Real.sqrt (((0 : ℝ) - 0) ^ 2 + ((0 : ℝ) - 0) ^ 2) + 1) * 1
            / (NFW.mk unitCosmology unitConsts 0 0 0 m 1 1).get_scale_radius)
        * 1 / (1 * (Real.sqrt (((0 : ℝ) - 0) ^ 2 + ((0 : ℝ) - 0) ^ 2) + 1) * 1)
        * ((0 : ℝ) - 0) / (Real.sqrt (((0 : ℝ) - 0) ^ 2 + ((0 : ℝ) - 0) ^ 2) + 1) = 0
    rw [show ((0 : ℝ) - 0) = 0 by ring]
    rw [mul_zero, zero_div]
  rw [h1 1, h1 2, h2 1, h2 2]

/-- C8 (amended): for every query point distinct from the resolved lens
center, with positive cosmological outputs, unit constants, concentration and
mass, the magnitude of the reduced deflection `deflection_angle_hat` — and
hence of `deflection_angle`, its positive multiple by `d_ls/d_s` — is a
strictly increasing function of the mass `m`. -/
theorem deflection_magnitude_strictMono_in_mass
    (C : Cosmology) (K : Consts) (z_l x0 y0 c s x y z_s m1 m2 : ℝ)
    (hρ : 0 < C.critical_density z_l)
    (hdl : 0 < C.angular_diameter_distance z_l)
    (hds : 0 < C.angular_diameter_distance z_s)
    (hdls : 0 < C.angular_diameter_distance_z1z2 z_l z_s)
    (hG : 0 < K.G_over_c2) (ha2r : 0 < K.arcsec_to_rad) (hr2a : 0 < K.rad_to_arcsec)
    (hc : 0 < c) (hs : 0 ≤ s)
    (hq : 0 < (x - x0) ^ 2 + (y - y0) ^ 2)
    (hm1 : 0 < m1) (hm12 : m1 < m2) :
    Real.sqrt (((NFW.mk C K z_l x0 y0 m1 c s).deflection_angle_hat x y z_s).1 ^ 2
        + ((NFW.mk C K z_l x0 y0 m1 c s).deflection_angle_hat x y z_s).2 ^ 2)
      < Real.sqrt (((NFW.mk C K z_l x0 y0 m2 c s).deflection_angle_hat x y z_s).1 ^ 2
        + ((NFW.mk C K z_l x0 y0 m2 c s).deflection_angle_hat x y z_s).2 ^ 2)
    ∧ Real.sqrt (((NFW.mk C K z_l x0 y0 m1 c s).deflection_angle x y z_s).1 ^ 2
        + ((NFW.mk C K z_l x0 y0 m1 c s).deflection_angle x y z_s).2 ^ 2)
      < Real.sqrt (((NFW.mk C K z_l x0 y0 m2 c s).deflection_angle x y z_s).1 ^ 2
        + ((NFW.mk C K z_l x0 y0 m2 c s).deflection_angle x y z_s).2 ^ 2) := by
  have hm2 : 0 < m2 := lt_trans hm1 hm12
  have hπ : (0 : ℝ) < π := Real.pi_pos
  have h16 : (0 : ℝ) < 16 * π := by positivity
  have hn : 0 < Real.sqrt ((x - x0) ^ 2 + (y - y0) ^ 2) := Real.sqrt_pos.mpr hq
  have hth : 0 < Real.sqrt ((x - x0) ^ 2 + (y - y0) ^ 2) + s := by linarith
  have hξ : 0 < C.angular_diameter_distance z_l
      * (Real.sqrt ((x - x0) ^ 2 + (y - y0) ^ 2) + s) * K.arcsec_to_rad :=
    mul_pos (mul_pos hdl hth) ha2r
  set n := Real.sqrt ((x - x0) ^ 2 + (y - y0) ^ 2) with hndef
  set th := n + s with hthdef
  set xi := C.angular_diameter_distance z_l * th * K.arcsec_to_rad with hxidef
  have hsdpos : 0 < (NFW.mk C K z_l x0 y0 m1 c s).get_scale_density :=
    get_scale_density_pos _ hρ hc
  have hrs1pos : 0 < (NFW.mk C K z_l x0 y0 m1 c s).get_scale_radius :=
    get_scale_radius_pos _ hρ hm1 hc
  have hrs2pos : 0 < (NFW.mk C K z_l x0 y0 m2 c s).get_scale_radius :=
    get_scale_radius_pos _ hρ hm2 hc
  have hrsmono : (NFW.mk C K z_l x0 y0 m1 c s).get_scale_radius
      < (NFW.mk C K z_l x0 y0 m2 c s).get_scale_radius := by
    show 1 / c * (3 * m1 / (4 * π * DELTA * C.critical_density z_l)) ^ ((1 : ℝ) / 3)
        < 1 / c * (3 * m2 / (4 * π * DELTA * C.critical_density z_l)) ^ ((1 : ℝ) / 3)
    have hD4 : 0 < 4 * π * DELTA * C.critical_density z_l := by
      have hΔ : (0 : ℝ) < DELTA := by norm_num [DELTA]
      positivity
    apply mul_lt_mul_of_pos_left _ (by positivity : (0 : ℝ) < 1 / c)
    apply Real.rpow_lt_rpow (by positivity) _ (by norm_num)
    rw [div_lt_div_iff hD4 hD4]
    exact mul_lt_mul_of_pos_right (by linarith) hD4
  set sd := (NFW.mk C K z_l x0 y0 m1 c s).get_scale_density with hsddef
  set rs1 := (NFW.mk C K z_l x0 y0 m1 c s).get_scale_radius with hrs1def
  set rs2 := (NFW.mk C K z_l x0 y0 m2 c s).get_scale_radius with hrs2def
  have hhat1 : (NFW.mk C K z_l x0 y0 m1 c s).deflection_angle_hat x y z_s
      = (16 * π * K.G_over_c2 * sd * rs1 ^ 3 * NFW._h (xi / rs1) * K.rad_to_arcsec / xi
            * (x - x0) / th,
         16 * π * K.G_over_c2 * sd * rs1 ^ 3 * NFW._h (xi / rs1) * K.rad_to_arcsec / xi
            * (y - y0) / th) := rfl
  have hhat2 : (NFW.mk C K z_l x0 y0 m2 c s).deflection_angle_hat x y z_s
      = (16 * π * K.G_over_c2 * sd * rs2 ^ 3 * NFW._h (xi / rs2) * K.rad_to_arcsec / xi
            * (x - x0) / th,
         16 * π * K.G_over_c2 * sd * rs2 ^ 3 * NFW._h (xi / rs2) * K.rad_to_arcsec / xi
            * (y - y0) / th) := rfl
  have hD1pos : 0 < 16 * π * K.G_over_c2 * sd * rs1 ^ 3 * NFW._h (xi / rs1)
      * K.rad_to_arcsec / xi := by
    apply div_pos _ hξ
    exact mul_pos (mul_pos (mul_pos (mul_pos (mul_pos h16 hG) hsdpos)
      (pow_pos hrs1pos 3)) (h_pos (div_pos hξ hrs1pos))) hr2a
  have hD2pos : 0 < 16 * π * K.G_over_c2 * sd * rs2 ^ 3 * NFW._h (xi / rs2)
      * K.rad_to_arcsec / xi := by
    apply div_pos _ hξ
    exact mul_pos (mul_pos (mul_pos (mul_pos (mul_pos h16 hG) hsdpos)
      (pow_pos hrs2pos 3)) (h_pos (div_pos hξ hrs2pos))) hr2a
  have hDmono : 16 * π * K.G_over_c2 * sd * rs1 ^ 3 * NFW._h (xi / rs1)
        * K.rad_to_arcsec / xi
      < 16 * π * K.G_over_c2 * sd * rs2 ^ 3 * NFW._h (xi / rs2)
        * K.rad_to_arcsec / xi := by
    have hF := F_strictMonoOn hξ (Set.mem_Ioi.mpr hrs1pos) (Set.mem_Ioi.mpr hrs2pos)
      hrsmono
    have hco : 0 < 16 * π * K.G_over_c2 * sd * K.rad_to_arcsec / xi := by
      apply div_pos _ hξ
      exact mul_pos (mul_pos (mul_pos h16 hG) hsdpos) hr2a
    calc 16 * π * K.G_over_c2 * sd * rs1 ^ 3 * NFW._h (xi / rs1) * K.rad_to_arcsec / xi
        = (16 * π * K.G_over_c2 * sd * K.rad_to_arcsec / xi)
            * (rs1 ^ 3 * NFW._h (xi / rs1)) := by ring
      _ < (16 * π * K.G_over_c2 * sd * K.rad_to_arcsec / xi)
            * (rs2 ^ 3 * NFW._h (xi / rs2)) := mul_lt_mul_of_pos_left hF hco
      _ = 16 * π * K.G_over_c2 * sd * rs2 ^ 3 * NFW._h (xi / rs2)
            * K.rad_to_arcsec / xi := by ring
  have hmag : ∀ D : ℝ, 0 ≤ D →
      Real.sqrt ((D * (x - x0) / th) ^ 2 + (D * (y - y0) / th) ^ 2) = D * n / th := by
    intro D hD
    rw [show (D * (x - x0) / th) ^ 2 + (D * (y - y0) / th) ^ 2
        = (D / th) ^ 2 * ((x - x0) ^ 2 + (y - y0) ^ 2) by ring]
    rw [Real.sqrt_mul (sq_nonneg _), Real.sqrt_sq_eq_abs, abs_div,
      abs_of_nonneg hD, abs_of_pos hth, ← hndef]
    ring
  have part1 : Real.sqrt (((NFW.mk C K z_l x0 y0 m1 c s).deflection_angle_hat x y z_s).1 ^ 2
        + ((NFW.mk C K z_l x0 y0 m1 c s).deflection_angle_hat x y z_s).2 ^ 2)
      < Real.sqrt (((NFW.mk C K z_l x0 y0 m2 c s).deflection_angle_hat x y z_s).1 ^ 2
        + ((NFW.mk C K z_l x0 y0 m2 c s).deflection_angle_hat x y z_s).2 ^ 2) := by
    rw [hhat1, hhat2]
    dsimp only
    rw [hmag _ hD1pos.le, hmag _ hD2pos.le, div_lt_div_iff hth hth]
    exact mul_lt_mul_of_pos_right (mul_lt_mul_of_pos_right hDmono hn) hth
  refine ⟨part1, ?_⟩
  have hratio : 0 < C.angular_diameter_distance_z1z2 z_l z_s
      / C.angular_diameter_distance z_s := div_pos hdls hds
  set ratio := C.angular_diameter_distance_z1z2 z_l z_s
      / C.angular_diameter_distance z_s with hratiodef
  have hd1 : (NFW.mk C K z_l x0 y0 m1 c s).deflection_angle x y z_s
      = (ratio * ((NFW.mk C K z_l x0 y0 m1 c s).deflection_angle_hat x y z_s).1,
         ratio * ((NFW.mk C K z_l x0 y0 m1 c s).deflection_angle_hat x y z_s).2) := rfl
  have hd2 : (NFW.mk C K z_l x0 y0 m2 c s).deflection_angle x y z_s
      = (ratio * ((NFW.mk C K z_l x0 y0 m2 c s).deflection_angle_hat x y z_s).1,
         ratio * ((NFW.mk C K z_l x0 y0 m2 c s).deflection_angle_hat x y z_s).2) := rfl
  have hsc : ∀ a b : ℝ, Real.sqrt ((ratio * a) ^ 2 + (ratio * b) ^ 2)
      = ratio * Real.sqrt (a ^ 2 + b ^ 2) := by
    intro a b
    rw [show (ratio * a) ^ 2 + (ratio * b) ^ 2 = ratio ^ 2 * (a ^ 2 + b ^ 2) by ring,
      Real.sqrt_mul (sq_nonneg _), Real.sqrt_sq_eq_abs, abs_of_pos hratio]
  rw [hd1, hd2]
  dsimp only
  rw [hsc, hsc]
  exact mul_lt_mul_of_pos_left part1 hratio

/-- Witness for the amended C8: unit cosmology and constants, lens center
`(0,0)`, `c = 1`, `s = 0`, query `(1, 0)`, masses `1 < 2`. -/
theorem deflection_magnitude_strictMono_in_mass_witness :
    ((0 : ℝ) < unitCosmology.critical_density 0
      ∧ (0 : ℝ) < unitCosmology.angular_diameter_distance 0
      ∧ (0 : ℝ) < unitCosmology.angular_diameter_distance 2
      ∧ (0 : ℝ) < unitCosmology.angular_diameter_distance_z1z2 0 2
      ∧ (0 : ℝ) < unitConsts.G_over_c2
      ∧ (0 : ℝ) < unitConsts.arcsec_to_rad
      ∧ (0 : ℝ) < unitConsts.rad_to_arcsec
      ∧ (0 : ℝ) < 1 ∧ (0 : ℝ) ≤ 0
      ∧ (0 : ℝ) < ((1 : ℝ) - 0) ^ 2 + ((0 : ℝ) - 0) ^ 2
      ∧ (0 : ℝ) < 1 ∧ (1 : ℝ) < 2) ∧
    (Real.sqrt (((NFW.mk unitCosmology unitConsts 0 0 0 1 1 0).deflection_angle_hat 1 0 2).1 ^ 2
        + ((NFW.mk unitCosmology unitConsts 0 0 0 1 1 0).deflection_angle_hat 1 0 2).2 ^ 2)
      < Real.sqrt (((NFW.mk unitCosmology unitConsts 0 0 0 2 1 0).deflection_angle_hat 1 0 2).1 ^ 2
        + ((NFW.mk unitCosmology unitConsts 0 0 0 2 1 0).deflection_angle_hat 1 0 2).2 ^ 2)
    ∧ Real.sqrt (((NFW.mk unitCosmology unitConsts 0 0 0 1 1 0).deflection_angle 1 0 2).1 ^ 2
        + ((NFW.mk unitCosmology unitConsts 0 0 0 1 1 0).deflection_angle 1 0 2).2 ^ 2)
      < Real.sqrt (((NFW.mk unitCosmology unitConsts 0 0 0 2 1 0).deflection_angle 1 0 2).1 ^ 2
        + ((NFW.mk unitCosmology unitConsts 0 0 0 2 1 0).deflection_angle 1 0 2).2 ^ 2)) := by
  constructor
  · exact ⟨by show (0 : ℝ) < 1; norm_num, by show (0 : ℝ) < 1; norm_num,
      by show (0 : ℝ) < 1; norm_num, by show (0 : ℝ) < 1; norm_num,
      by show (0 : ℝ) < 1; norm_num, by show (0 : ℝ) < 1; norm_num,
      by show (0 : ℝ) < 1; norm_num, by norm_num, by norm_num, by norm_num,
      by norm_num, by norm_num⟩
  · exact deflection_magnitude_strictMono_in_mass unitCosmology unitConsts 0 0 0 1 0 1 0 2 1 2
      (by show (0 : ℝ) < 1; norm_num) (by show (0 : ℝ) < 1; norm_num)
      (by show (0 : ℝ) < 1; norm_num) (by show (0 : ℝ) < 1; norm_num)
      (by show (0 : ℝ) < 1; norm_num) (by show (0 : ℝ) < 1; norm_num)
      (by show (0 : ℝ) < 1; norm_num) (by norm_num) (by norm_num)
      (by norm_num) (by norm_num) (by norm_num)

end Caustic
